import Mathlib

/-!
# network-audio: a verification development

A shallow embedding of the jitter ring (`pkg/circularbuffer`), the frame codec
(`pkg/messages`), the client clock and sink (`pkg/client/player`) and the traffic
handlers (`pkg/client`, `pkg/server`), with theorems about them.

Conventions of the embedding.

* A call either returns, waits on the condition variable, or panics: `Outcome`.
  The model is sequential, so a call that waits never returns.
* Go `nil` in an `any` slot is `none`; a stored value is `some v`.
* Instants are integer nanoseconds since the Unix epoch, durations are `int64`
  nanoseconds (`wrap64` where Go wraps, `clamp64` where `Time.Sub` saturates).
-/

set_option autoImplicit false

/-- Result of a call in the sequential model: it returns a value, it waits forever on a
condition variable (no other task runs), or it panics. -/
inductive Outcome (β : Type) where
  | ok (b : β)
  | blocks
  | panics
  deriving DecidableEq, Repr

namespace Outcome

/-- Sequencing of calls: the first one that waits or panics decides. -/
def bind {β γ : Type} (x : Outcome β) (f : β → Outcome γ) : Outcome γ :=
  match x with
  | ok b => f b
  | blocks => blocks
  | panics => panics

end Outcome

/-! ## pkg/circularbuffer -/

namespace circularbuffer

/-- The fields of `Queue` (circularbuffer.go:8-24) that carry data; the mutexes and the
condition variable have no state of their own in the sequential model. -/
structure Queue (α : Type) where
  buffer : List (Option α)
  maxSize : Nat
  readerPosition : Nat
  writerPosition : Nat
  isFull : Bool
  deriving DecidableEq, Repr

variable {α : Type}

/-- `Queue.Clear` (circularbuffer.go:135-148): a fresh buffer of `maxSize` nil slots, both
cursors 0, full flag false. -/
def Queue.Clear (queue : Queue α) : Queue α :=
  { queue with
    buffer := List.replicate queue.maxSize none
    readerPosition := 0
    writerPosition := 0
    isFull := false }

/-- `New` (circularbuffer.go:27-36): panics below capacity 1, otherwise `&Queue{maxSize}`
followed by `Clear`. -/
def New (maxSize : Nat) : Outcome (Queue α) :=
  if maxSize < 1 then Outcome.panics
  else Outcome.ok (Queue.Clear
    { buffer := [], maxSize := maxSize, readerPosition := 0, writerPosition := 0,
      isFull := false })

/-- `Queue.Full` (circularbuffer.go:109-114). -/
def Queue.Full (queue : Queue α) : Bool := queue.isFull

/-- `Queue.Size` (circularbuffer.go:116-133), in Go `int` arithmetic. -/
def Queue.Size (queue : Queue α) : Int :=
  if queue.writerPosition < queue.readerPosition then
    (queue.maxSize : Int) - queue.readerPosition + queue.writerPosition
  else if queue.writerPosition = queue.readerPosition then
    if queue.Full then (queue.maxSize : Int) else 0
  else
    (queue.writerPosition : Int) - queue.readerPosition

/-- `Queue.Empty` (circularbuffer.go:105-107). -/
def Queue.Empty (queue : Queue α) : Bool := decide (queue.Size = 0)

/-- `Queue.Enqueue` (circularbuffer.go:39-65). `waitNotFull` waits while `Full()`; the
slot write panics when the writer cursor is outside the buffer. -/
def Queue.Enqueue (queue : Queue α) (value : Option α) : Outcome (Queue α) :=
  if queue.Full then Outcome.blocks
  else if queue.writerPosition < queue.buffer.length then
    let buffer := queue.buffer.set queue.writerPosition value
    let writerPosition :=
      if queue.writerPosition + 1 ≥ queue.maxSize then 0 else queue.writerPosition + 1
    Outcome.ok
      { queue with
        buffer := buffer
        writerPosition := writerPosition
        isFull := if writerPosition = queue.readerPosition then true else queue.isFull }
  else Outcome.panics

/-- `Queue.Dequeue` (circularbuffer.go:68-93). `waitNotEmpty` waits while `Empty()`; a nil
head is returned without touching the cursor, the slot or the full flag. -/
def Queue.Dequeue (queue : Queue α) : Outcome (Option α × Queue α) :=
  if queue.Empty then Outcome.blocks
  else
    match queue.buffer[queue.readerPosition]? with
    | none => Outcome.panics
    | some none => Outcome.ok (none, queue)
    | some (some v) =>
      Outcome.ok (some v,
        { queue with
          buffer := queue.buffer.set queue.readerPosition none
          readerPosition :=
            if queue.readerPosition + 1 ≥ queue.maxSize then 0 else queue.readerPosition + 1
          isFull := false })

/-- `Queue.Peek` (circularbuffer.go:96-103). -/
def Queue.Peek (queue : Queue α) : Outcome (Option α) :=
  if queue.Empty then Outcome.blocks
  else
    match queue.buffer[queue.readerPosition]? with
    | none => Outcome.panics
    | some value => Outcome.ok value

/-- A call made by a client of the queue in a test scenario. -/
inductive Call (α : Type) where
  | enqueue (v : α)
  | dequeue
  deriving DecidableEq, Repr

/-- One call on the queue; the values returned by `Dequeue` are appended to the log. -/
def step (st : Queue α × List (Option α)) (c : Call α) :
    Outcome (Queue α × List (Option α)) :=
  match c with
  | Call.enqueue v => (st.1.Enqueue (some v)).bind (fun q => Outcome.ok (q, st.2))
  | Call.dequeue => (st.1.Dequeue).bind (fun r => Outcome.ok (r.2, st.2 ++ [r.1]))

/-- The calls of `cs`, in order, on a queue made by `New maxSize`: the final queue and the
values returned by the `Dequeue` calls. -/
def run (maxSize : Nat) (cs : List (Call α)) : Outcome (Queue α × List (Option α)) :=
  cs.foldl (fun acc c => acc.bind (fun st => step st c))
    ((New maxSize).bind (fun q => Outcome.ok (q, [])))

/-- The values enqueued by `cs`, in call order. -/
def enqueued (cs : List (Call α)) : List α :=
  cs.filterMap (fun c => match c with | Call.enqueue v => some v | Call.dequeue => none)

/-- The number of `Dequeue` calls in `cs`. -/
def dequeues (cs : List (Call α)) : Nat :=
  (cs.filter (fun c => match c with | Call.enqueue _ => false | Call.dequeue => true)).length

/-- Every prefix of `cs` keeps dequeues ≤ enqueues ≤ dequeues + `maxSize`. -/
def Admissible (maxSize : Nat) (cs : List (Call α)) : Prop :=
  ∀ n, n ≤ cs.length →
    dequeues (cs.take n) ≤ (enqueued (cs.take n)).length ∧
    (enqueued (cs.take n)).length ≤ dequeues (cs.take n) + maxSize

instance (maxSize : Nat) (cs : List (Call α)) : Decidable (Admissible maxSize cs) := by
  unfold Admissible; infer_instance

/-- Index of the `i`-th slot after cursor `r` in a ring of `C` slots. -/
def slot (C r i : Nat) : Nat := if r + i < C then r + i else r + i - C

/-- The queue `q` of capacity `C` holds exactly the values `l`, oldest first. -/
structure Holds (q : Queue α) (C : Nat) (l : List α) : Prop where
  cap : q.maxSize = C
  len : q.buffer.length = C
  rd : q.readerPosition < C
  sz : l.length ≤ C
  wr : q.writerPosition = slot C q.readerPosition l.length
  full : q.isFull = decide (l.length = C)
  item : ∀ i, i < l.length → q.buffer[slot C q.readerPosition i]? = some (l[i]?)

/-- What a returned run looks like: the queue holds the enqueued values not yet dequeued and
the log is the dequeued front of the enqueued values. -/
def Tracks (C : Nat) (cs : List (Call α)) (st : Queue α × List (Option α)) : Prop :=
  dequeues cs ≤ (enqueued cs).length ∧
  Holds st.1 C ((enqueued cs).drop (dequeues cs)) ∧
  st.2 = ((enqueued cs).take (dequeues cs)).map some

/-- Scenario on capacity 2 in which both cursors wrap around the end of the buffer. -/
def wrapCalls : List (Call Nat) :=
  [Call.enqueue 10, Call.enqueue 20, Call.dequeue, Call.enqueue 30, Call.dequeue,
   Call.enqueue 40, Call.dequeue, Call.enqueue 50, Call.dequeue, Call.dequeue]

/-- Scenario on capacity 3 that ends with the writer cursor behind the reader cursor. -/
def behindCalls : List (Call Nat) :=
  [Call.enqueue 1, Call.enqueue 2, Call.dequeue, Call.enqueue 3, Call.dequeue,
   Call.enqueue 4]

end circularbuffer


/-! ## pkg/circularbuffer: all four operations, and the condition variable -/

namespace circularbuffer

variable {α : Type}

/-- A call on the queue by a task that does not have to wait: `Enqueue` of any value (nil
included), `Dequeue`, `Peek`, `Clear`. -/
inductive Op (α : Type) where
  | enqueue (value : Option α)
  | dequeue
  | peek
  | clear
  deriving DecidableEq, Repr

/-- One call on the queue; the values returned by `Dequeue` and `Peek` are appended to the
log. `Peek` (circularbuffer.go:96-103) assigns no field of the queue. -/
def stepOp (st : Queue α × List (Option α)) (o : Op α) :
    Outcome (Queue α × List (Option α)) :=
  match o with
  | Op.enqueue value => (st.1.Enqueue value).bind (fun q => Outcome.ok (q, st.2))
  | Op.dequeue => (st.1.Dequeue).bind (fun r => Outcome.ok (r.2, st.2 ++ [r.1]))
  | Op.peek => (st.1.Peek).bind (fun v => Outcome.ok (st.1, st.2 ++ [v]))
  | Op.clear => Outcome.ok (st.1.Clear, st.2)

/-- The calls `ops`, in order, on the queue `q`. -/
def runFrom (q : Queue α) (ops : List (Op α)) : Outcome (Queue α × List (Option α)) :=
  ops.foldl (fun acc o => acc.bind (fun st => stepOp st o)) (Outcome.ok (q, []))

/-- The calls `ops`, in order, on a queue made by `New maxSize`. -/
def runOps (maxSize : Nat) (ops : List (Op α)) : Outcome (Queue α × List (Option α)) :=
  (New maxSize).bind (fun q => runFrom q ops)

/-- The shape of every reachable queue of capacity `C`: both cursors inside the buffer, and
the full flag set only while the writer cursor is on the reader cursor. -/
structure Wf (q : Queue α) (C : Nat) : Prop where
  cap : q.maxSize = C
  len : q.buffer.length = C
  rd : q.readerPosition < C
  wr : q.writerPosition < C
  full : q.isFull = true → q.writerPosition = q.readerPosition

/-- A queue of capacity `C` whose head is a nil entry: it is not empty and the slot under
the reader cursor holds nil. -/
structure Wedged (q : Queue α) (C : Nat) : Prop where
  wf : Wf q C
  nonempty : q.Empty = false
  head : q.buffer[q.readerPosition]? = some none

/-- The calls of `ops` are `Enqueue` and `Dequeue` only. -/
def noClear (ops : List (Op α)) : Prop :=
  ∀ o, o ∈ ops → (∃ v, o = Op.enqueue v) ∨ o = Op.dequeue

/-- A call in which a task can wait on the condition variable. -/
inductive Pending (α : Type) where
  | enqueue (value : Option α)
  | dequeue
  | peek
  deriving DecidableEq, Repr

/-- A task parked in `queue.cond.Wait()` (circularbuffer.go:154, 164): the condition
variable it called `Wait` on, and the call it is in. -/
structure Parked (α : Type) where
  cond : Nat
  call : Pending α
  deriving DecidableEq, Repr

/-- The queue together with its condition variable and the tasks that use it. `cond` is
the identity of the `*sync.Cond` now stored in `queue.cond`; `fresh` is the next identity
`sync.NewCond` hands out; `parked` are the tasks inside `Wait`; `runnable` are the tasks
woken by a `Broadcast` that have not yet re-evaluated their predicate; `returned` are the
values returned so far by `Dequeue` and `Peek`. -/
structure Monitor (α : Type) where
  queue : Queue α
  cond : Nat
  fresh : Nat
  parked : List (Parked α)
  runnable : List (Pending α)
  returned : List (Option α)
  deriving DecidableEq, Repr

/-- What happens next to the monitor: a task enters a call, a task calls `Clear`, or the
`i`-th runnable task gets the processor and re-evaluates its predicate. -/
inductive Event (α : Type) where
  | call (c : Pending α)
  | clear
  | resume (i : Nat)
  deriving DecidableEq, Repr

/-- A monitor around a queue made by `New maxSize`, with no task in it. -/
def Monitor.New (maxSize : Nat) : Outcome (Monitor α) :=
  (circularbuffer.New maxSize).bind (fun q =>
    Outcome.ok
      { queue := q, cond := 0, fresh := 1, parked := [], runnable := [], returned := [] })

/-- `queue.cond.Broadcast()` (circularbuffer.go:64, 90): `sync.Cond.Broadcast` wakes the
tasks waiting on that condition variable, and no other. -/
def Monitor.Broadcast (m : Monitor α) : Monitor α :=
  { m with
    parked := m.parked.filter (fun p => decide (p.cond ≠ m.cond))
    runnable := m.runnable ++
      ((m.parked.filter (fun p => decide (p.cond = m.cond))).map (fun p => p.call)) }

/-- `queue.cond.Wait()` in `waitNotEmpty` / `waitNotFull` (circularbuffer.go:150-168): the
task parks on the condition variable stored in `queue.cond` at that moment. -/
def Monitor.Wait (m : Monitor α) (c : Pending α) : Monitor α :=
  { m with parked := m.parked ++ [{ cond := m.cond, call := c }] }

/-- `Queue.Clear` (circularbuffer.go:135-148) with its condition variable: the queue is
reset and `queue.cond` is replaced by a new condition variable; there is no `Broadcast` on
the old one. -/
def Monitor.Clear (m : Monitor α) : Monitor α :=
  { m with queue := m.queue.Clear, cond := m.fresh, fresh := m.fresh + 1 }

/-- A task evaluates the predicate of its call: it parks when the call has to wait, and
otherwise does the call, which ends with a `Broadcast` (`Enqueue`, `Dequeue`) or without
one (`Peek`). -/
def Monitor.attempt (m : Monitor α) (c : Pending α) : Outcome (Monitor α) :=
  match c with
  | Pending.enqueue value =>
    match m.queue.Enqueue value with
    | Outcome.blocks => Outcome.ok (m.Wait c)
    | Outcome.panics => Outcome.panics
    | Outcome.ok q => Outcome.ok (Monitor.Broadcast { m with queue := q })
  | Pending.dequeue =>
    match m.queue.Dequeue with
    | Outcome.blocks => Outcome.ok (m.Wait c)
    | Outcome.panics => Outcome.panics
    | Outcome.ok (v, q) =>
      Outcome.ok (Monitor.Broadcast { m with queue := q, returned := m.returned ++ [v] })
  | Pending.peek =>
    match m.queue.Peek with
    | Outcome.blocks => Outcome.ok (m.Wait c)
    | Outcome.panics => Outcome.panics
    | Outcome.ok v => Outcome.ok { m with returned := m.returned ++ [v] }

/-- One event on the monitor. Resuming a task that is not runnable changes nothing. -/
def Monitor.step (m : Monitor α) (e : Event α) : Outcome (Monitor α) :=
  match e with
  | Event.call c => m.attempt c
  | Event.clear => Outcome.ok m.Clear
  | Event.resume i =>
    match m.runnable[i]? with
    | none => Outcome.ok m
    | some c => Monitor.attempt { m with runnable := m.runnable.eraseIdx i } c

/-- The events `es`, in order, on the monitor `m`. -/
def Monitor.run (m : Monitor α) (es : List (Event α)) : Outcome (Monitor α) :=
  es.foldl (fun acc e => acc.bind (fun m => m.step e)) (Outcome.ok m)

/-- A consumer enters `Dequeue` on the empty ring of capacity 2, another task calls
`Clear`, a producer enqueues 1. -/
def clearScenario : List (Event Nat) :=
  [Event.call Pending.dequeue, Event.clear, Event.call (Pending.enqueue (some 1))]

/-- As `clearScenario`, without the `Clear`. -/
def plainScenario : List (Event Nat) :=
  [Event.call Pending.dequeue, Event.call (Pending.enqueue (some 1)), Event.resume 0]

end circularbuffer

/-! ## encoding/binary and the gnet connection (external collaborators) -/

/-- A byte. -/
abbrev Byte := Fin 256

/-- The low eight bits of `n` as a byte (Go `byte(n)`). -/
def byte (n : Nat) : Byte := ⟨n % 256, Nat.mod_lt n (by decide)⟩

/-- Go `uint64(i)` for an `int` `i`: the value modulo 2^64. -/
def toUint64 (i : Int) : Nat := (i % 2 ^ 64).toNat

/-- Go `int(u)` for a `uint64` `u` on a 64-bit platform: two's complement reading. -/
def toInt64 (u : Nat) : Int :=
  if u % 2 ^ 64 < 2 ^ 63 then ((u % 2 ^ 64 : Nat) : Int) else ((u % 2 ^ 64 : Nat) : Int) - 2 ^ 64

/-- `binary.BigEndian.PutUint64` into a fresh 8-byte slice. -/
def PutUint64 (v : Nat) : List Byte :=
  [byte (v / 2 ^ 56), byte (v / 2 ^ 48), byte (v / 2 ^ 40), byte (v / 2 ^ 32),
   byte (v / 2 ^ 24), byte (v / 2 ^ 16), byte (v / 2 ^ 8), byte v]

/-- `binary.BigEndian.Uint64` of the first eight bytes of `b` (Go panics on a shorter
slice; every call in this program passes an 8-byte slice of a 16-byte header). -/
def Uint64 (b : List Byte) : Nat :=
  (b.take 8).foldl (fun acc x => acc * 256 + x.val) 0

/-- Go `copy(dst, src)`: the first `min(len(dst), len(src))` bytes of `dst` are overwritten. -/
def copyInto (dst src : List Byte) : List Byte :=
  src.take dst.length ++ dst.drop src.length

/-- The inbound side of a `gnet.Conn` during one `OnTraffic` call: the bytes received and
not yet consumed. -/
structure Conn where
  inbound : List Byte
  deriving DecidableEq, Repr

/-- `gnet.Conn.Peek(n)` (gnet v2): `io.ErrShortBuffer` (here `none`) when more than the
buffered bytes are asked for; all buffered bytes when `n <= 0`; otherwise the next `n`
bytes. The read position does not move. -/
def Conn.Peek (c : Conn) (n : Int) : Option (List Byte) :=
  if n > (c.inbound.length : Int) then none
  else if n ≤ 0 then some c.inbound
  else some (c.inbound.take n.toNat)

/-- `gnet.Conn.Discard(n)` (gnet v2): drops everything buffered when `n <= 0` or when
fewer than `n` bytes are buffered, otherwise the next `n` bytes; the error is always nil.
Returns the number of bytes dropped and the connection. -/
def Conn.Discard (c : Conn) (n : Int) : Int × Conn :=
  if (c.inbound.length : Int) < n ∨ n ≤ 0 then ((c.inbound.length : Int), { inbound := [] })
  else (n, { inbound := c.inbound.drop n.toNat })

/-- `gnet.Conn.Read(p)` for a slice `p` of length `len` (gnet v2): moves up to `len`
buffered bytes into `p`; the error is non-nil (second component `false`) exactly when no
byte was read although `len > 0`. Returns the bytes read, the success flag and the
connection. -/
def Conn.Read (c : Conn) (len : Nat) : List Byte × Bool × Conn :=
  (c.inbound.take len, !(decide ((c.inbound.take len).length = 0) && decide (0 < len)),
    { inbound := c.inbound.drop len })

/-! ## pkg/messages -/

namespace messages

/-- An IEEE-754 double, as its bit pattern; the program only moves these values. -/
abbrev Float64 := Nat

/-- Modelled from the spec: `timestamp.Timestamp` of the protobuf well-known types
(`{ seconds: int64, nanos: int32 }`, spec section 6); the declaration is not among the
sources. -/
structure Timestamp where
  Seconds : Int
  Nanos : Int
  deriving DecidableEq, Repr

/-- Modelled from the spec: the generated message type `Audio` (`left`, `right`: repeated
double; `time`), spec section 6; the generated file is not among the sources. A message
field that is absent on the wire is a nil pointer, here `none`. -/
structure Audio where
  Left : List Float64
  Right : List Float64
  Time : Option Timestamp
  deriving DecidableEq, Repr

set_option linter.dupNamespace false in
/-- Modelled from the spec: the generated message type `Time` (`time`), spec section 6. -/
structure Time where
  Time : Option Timestamp
  deriving DecidableEq, Repr

set_option linter.dupNamespace false in
/-- Modelled from the spec: the generated message type `Latency` (`latency`: int64
nanoseconds; `time`), spec section 6. -/
structure Latency where
  Latency : Int
  Time : Option Timestamp
  deriving DecidableEq, Repr

/-- A `proto.Message` of this program: one of the three generated types. -/
inductive Message where
  | audio (m : Audio)
  | time (m : Time)
  | latency (m : Latency)
  deriving DecidableEq, Repr

/-- `AudioType` (messages.go:10). -/
def AudioType : Int := 0x10
/-- `TimeType` (messages.go:11). -/
def TimeType : Int := 0x20
/-- `LatencyType` (messages.go:12). -/
def LatencyType : Int := 0x30

/-- The protobuf library as used by the program: `proto.Marshal` (`none` is an error) and
`proto.Unmarshal` into a fresh message of each of the three types. -/
structure Proto where
  Marshal : Message → Option (List Byte)
  UnmarshalAudio : List Byte → Option Audio
  UnmarshalTime : List Byte → Option Time
  UnmarshalLatency : List Byte → Option Latency

/-- `Unmarshal` undoes `Marshal` on the message `m`. -/
def Proto.Inverts (P : Proto) (m : Message) : Prop :=
  ∀ payload, P.Marshal m = some payload →
    match m with
    | Message.audio a => P.UnmarshalAudio payload = some a
    | Message.time t => P.UnmarshalTime payload = some t
    | Message.latency l => P.UnmarshalLatency payload = some l

/-- `Packet` (packet.go:23-26). -/
structure Packet where
  mtype : Int
  message : Message
  deriving DecidableEq, Repr

/-- `ToPacket` (messages.go:14-31); the `default` branch is unreachable for the three
generated types. -/
def ToPacket (message : Message) : Packet :=
  match message with
  | Message.audio _ => { mtype := AudioType, message := message }
  | Message.time _ => { mtype := TimeType, message := message }
  | Message.latency _ => { mtype := LatencyType, message := message }

/-- `ToBytes` (messages.go:34-42). -/
def ToBytes (P : Proto) (message : Message) : Option (List Byte) := P.Marshal message

/-- `Packet.MessageTypeBytes` (packet.go:107-112). -/
def Packet.MessageTypeBytes (p : Packet) : List Byte := PutUint64 (toUint64 p.mtype)

/-- `Packet.MessageBytes` (packet.go:114-122). -/
def Packet.MessageBytes (P : Proto) (p : Packet) : Option (List Byte) := ToBytes P p.message

/-- `Packet.MessageLengthBytes` (packet.go:140-151). -/
def Packet.MessageLengthBytes (P : Proto) (p : Packet) : Option (List Byte) :=
  match p.MessageBytes P with
  | none => none
  | some mb => some (PutUint64 (toUint64 (mb.length : Int)))

/-- `Packet.HeaderBytes` (packet.go:92-105). -/
def Packet.HeaderBytes (P : Proto) (p : Packet) : Option (List Byte) :=
  let mts := p.MessageTypeBytes
  match p.MessageLengthBytes P with
  | none => none
  | some mlb =>
    let b : List Byte := List.replicate 16 0
    some (copyInto (b.take 8) mts ++ copyInto ((b.drop 8).take 8) mlb)

/-- `Packet.Bytes` (packet.go:124-138). -/
def Packet.Bytes (P : Proto) (p : Packet) : Option (List Byte) :=
  match p.HeaderBytes P with
  | none => none
  | some hb =>
    match p.MessageBytes P with
    | none => none
    | some mb => some (hb ++ mb)

/-- The type tag `ToPacket` gives a message, as an unsigned value. -/
def tagOf (m : Message) : Nat :=
  match m with
  | Message.audio _ => 0x10
  | Message.time _ => 0x20
  | Message.latency _ => 0x30

/-- The errors `FromConnection` returns, one per `return nil, ...` of packet.go:28-86. -/
inductive DecodeError where
  | readingType
  | unsupportedType (messageType : Int)
  | readingMessage
  | lengthMismatch (expected got : Int)
  | readError
  | unmarshalling
  deriving DecidableEq, Repr

/-- The message variable of `FromConnection` (packet.go:38-49) and `proto.Unmarshal` into
it (packet.go:79-85), for a type tag that passed the `switch`. -/
def unmarshalInto (P : Proto) (messageType : Int) (messageBytes : List Byte) :
    Except DecodeError Message :=
  if messageType = AudioType then
    match P.UnmarshalAudio messageBytes with
    | none => Except.error DecodeError.unmarshalling
    | some a => Except.ok (Message.audio a)
  else if messageType = TimeType then
    match P.UnmarshalTime messageBytes with
    | none => Except.error DecodeError.unmarshalling
    | some t => Except.ok (Message.time t)
  else
    match P.UnmarshalLatency messageBytes with
    | none => Except.error DecodeError.unmarshalling
    | some l => Except.ok (Message.latency l)

/-- `FromConnection` (packet.go:28-86): the message or the error, and the connection after
the call. (`Discard` never returns an error, so the branch of line 53 is dead.) -/
def FromConnection (P : Proto) (connection : Conn) : Except DecodeError Message × Conn :=
  match connection.Peek 16 with
  | none => (Except.error DecodeError.readingType, connection)
  | some headerBytes =>
    let messageType := toInt64 (Uint64 (headerBytes.take 8))
    let messageLength := toInt64 (Uint64 ((headerBytes.drop 8).take 8))
    if messageType = AudioType ∨ messageType = TimeType ∨ messageType = LatencyType then
      let connection := (connection.Discard 16).2
      match connection.Peek messageLength with
      | none => (Except.error DecodeError.readingMessage, connection)
      | some peekedBytes =>
        if (peekedBytes.length : Int) ≠ messageLength then
          (Except.error
            (DecodeError.lengthMismatch messageLength (peekedBytes.length : Int)), connection)
        else
          let r := connection.Read messageLength.toNat
          let messageBytes := r.1
          let connection := r.2.2
          if r.2.1 = false then (Except.error DecodeError.readError, connection)
          else if (messageBytes.length : Int) ≠ messageLength then
            (Except.error
              (DecodeError.lengthMismatch messageLength (messageBytes.length : Int)),
              connection)
          else (unmarshalInto P messageType messageBytes, connection)
    else (Except.error (DecodeError.unsupportedType messageType), connection)

/-- A toy stand-in for the protobuf library, used to instantiate statements: a `Time`
message is its seconds as 8 big-endian bytes (nothing when the field is absent), any other
message is refused. -/
def demoProto : Proto where
  Marshal := fun m =>
    match m with
    | Message.time ⟨none⟩ => some []
    | Message.time ⟨some ts⟩ => some (PutUint64 (toUint64 ts.Seconds))
    | _ => none
  UnmarshalAudio := fun _ => none
  UnmarshalTime := fun b =>
    if b.length = 0 then some ⟨none⟩
    else if b.length = 8 then some ⟨some ⟨toInt64 (Uint64 b), 0⟩⟩ else none
  UnmarshalLatency := fun _ => none

end messages

/-! ## time, beep.SampleRate (external collaborators) and pkg/timex -/

namespace time

/-- `Int`: a count of nanoseconds in an `int64`. -/
abbrev Duration := Int

/-- `time.Nanosecond`. -/
def Nanosecond : Duration := 1
/-- `time.Millisecond`. -/
def Millisecond : Duration := 1000000
/-- `time.Second`. -/
def Second : Duration := 1000000000

/-- The least `int64`. -/
def minInt64 : Int := -(2 ^ 63)
/-- The greatest `int64`. -/
def maxInt64 : Int := 2 ^ 63 - 1

/-- Wrap-around of `int64` arithmetic: the representative of `x` modulo 2^64 in
`[-2^63, 2^63)`. -/
def wrap64 (x : Int) : Int := (x + 2 ^ 63) % 2 ^ 64 - 2 ^ 63

/-- Saturation of `Time.Sub` at the least and the greatest `Duration`. -/
def clamp64 (x : Int) : Int :=
  if x < minInt64 then minInt64 else if x > maxInt64 then maxInt64 else x

/-- `time.Time`: an instant, as nanoseconds since the Unix epoch (location and monotonic
reading are not modelled). -/
structure Time where
  unixNano : Int
  deriving DecidableEq, Repr

/-- `Time.Sub`: the duration `t - u`, saturated to the `int64` range. -/
def Time.Sub (t u : Time) : Int := clamp64 (t.unixNano - u.unixNano)

/-- `Time.Add`. -/
def Time.Add (t : Time) (d : Int) : Time := ⟨t.unixNano + d⟩

/-- `time.Unix(sec, nsec)`: the instant `sec` seconds and `nsec` nanoseconds after the
epoch. (Go keeps the seconds since year 1 in an `int64`, so for `sec` above
2^63 - 1 - 62135596800 the Go value wraps; that range is not modelled.) -/
def Unix (sec nsec : Int) : Time := ⟨sec * 1000000000 + nsec⟩

/-- `Time.Unix()`: whole seconds since the epoch, rounded down. -/
def Time.Unix (t : Time) : Int := t.unixNano / 1000000000

/-- `Time.Nanosecond()`: the nanosecond within the second, in `[0, 999999999]`. -/
def Time.Nanosecond (t : Time) : Int := t.unixNano % 1000000000

/-- `Duration.Nanoseconds()`. -/
def Duration.Nanoseconds (d : Int) : Int := d

end time

namespace beep

/-- `beep.SampleRate.D(n)`: `time.Second * time.Duration(n) / time.Duration(sr)` in
`int64` arithmetic; the division panics when the rate is 0. -/
def SampleRate.D (sr : Int) (n : Int) : Outcome Int :=
  if sr = 0 then Outcome.panics
  else Outcome.ok (Int.tdiv (time.wrap64 (time.Second * n)) sr)

/-- `beep.SampleRate.N(d)`: `int(d * time.Duration(sr) / time.Second)` in `int64`
arithmetic; the division truncates toward zero. -/
def SampleRate.N (sr : Int) (d : Int) : Int :=
  Int.tdiv (time.wrap64 (d * sr)) time.Second

end beep

namespace timex

/-- `ToTimestamp` (timestamp.go:9-14). -/
def ToTimestamp (t : time.Time) : messages.Timestamp :=
  { Seconds := t.Unix, Nanos := t.Nanosecond }

/-- `ToTime` (timestamp.go:16-18): the field reads dereference `t`, so a nil `t` panics. -/
def ToTime (t : Option messages.Timestamp) : Outcome time.Time :=
  match t with
  | none => Outcome.panics
  | some ts => Outcome.ok (time.Unix ts.Seconds ts.Nanos)

end timex

/-! ## pkg/audio -/

namespace audio

/-- `Sample` (sample.go:8-12). -/
structure Sample where
  Data : messages.Float64 × messages.Float64
  Time : time.Time
  deriving DecidableEq, Repr

/-- `New` (sample.go:14-16). -/
def New (data : messages.Float64 × messages.Float64) (t : time.Time) : Sample := ⟨data, t⟩

end audio

/-! ## pkg/client/player -/

namespace player

open circularbuffer

/-- The wall clock as seen by one task: the value returned by its `n`-th call of
`time.Now()`. -/
abbrev Wall := Nat → time.Time

/-- `Clock` (clock.go:11-14); the lock has no state in the sequential model. -/
structure Clock where
  latency : Int
  deriving DecidableEq, Repr

/-- `NewClock` (clock.go:16-21). -/
def NewClock (latency : Int) : Clock := { latency := latency }

/-- `Clock.GetLatency` (clock.go:23-28). -/
def Clock.GetLatency (c : Clock) : Int := c.latency

/-- `Clock.Now` (clock.go:30-32), `now` being what `time.Now()` returns. -/
def Clock.Now (c : Clock) (now : time.Time) : time.Time :=
  now.Add (time.wrap64 (-c.GetLatency))

/-- `Clock.UpdateLatency` (clock.go:34-44), `now` being what `time.Now()` returns: the
clock after the call and the value returned. -/
def Clock.UpdateLatency (c : Clock) (m : messages.Latency) (now : time.Time) :
    Outcome (Clock × Int) :=
  (timex.ToTime m.Time).bind (fun sent =>
    let received := now
    let latency := Int.tdiv (time.wrap64 (received.Sub sent + m.Latency)) 2
    Outcome.ok ({ c with latency := latency }, latency))

/-- The fields of `Player` (player.go:16-33) that carry data. `fillStreamer` is the
default `beep.Silence(-1)`, which writes zero samples into every slot it is given. -/
structure Player where
  streamBuffer : Queue audio.Sample
  SampleRate : Int
  bufferSize : Int
  clock : Clock
  delayThreshold : Int
  deriving DecidableEq, Repr

/-- The sample `beep.Silence` writes: `[2]float64{}`. -/
def silence : messages.Float64 × messages.Float64 := (0, 0)

/-- `New` (player.go:61-86) with the default options: 44100 Hz, threshold 10 ms, buffer
256, ring of `SampleRate.N(500 ms)` slots. -/
def New (clock : Clock) : Outcome Player :=
  (circularbuffer.New (beep.SampleRate.N 44100 (time.Millisecond * 500)).toNat).bind
    (fun q => Outcome.ok
      { streamBuffer := q, SampleRate := 44100, bufferSize := 256, clock := clock,
        delayThreshold := time.Millisecond * 10 })

/-- `Player.SampleDuration` (player.go:88-90). -/
def Player.SampleDuration (p : Player) (n : Int) : Outcome Int :=
  beep.SampleRate.D p.SampleRate n

/-- `Player.UpdateLatency` (player.go:92-94). -/
def Player.UpdateLatency (p : Player) (m : messages.Latency) (now : time.Time) :
    Outcome (Player × Int) :=
  (p.clock.UpdateLatency m now).bind (fun r => Outcome.ok ({ p with clock := r.1 }, r.2))

/-- The loop of `Player.Enqueue` (player.go:97-111) from position `index` on, `rest` being
the elements of `am.Left` still to visit and `tick` the number of wall-clock reads made so
far. Returns the player and the number of reads. -/
def Player.enqueueLoop (am : messages.Audio) (wall : Wall) :
    List messages.Float64 → Nat → Player → Nat → Outcome (Player × Nat)
  | [], _, p, tick => Outcome.ok (p, tick)
  | leftData :: rest, index, p, tick =>
    match am.Right[index]? with
    | none => Outcome.panics
    | some rightData =>
      (p.SampleDuration (index : Int)).bind (fun offset =>
        (timex.ToTime am.Time).bind (fun t =>
          let s := audio.New (leftData, rightData) (t.Add offset)
          if (wall tick).Sub s.Time > time.Millisecond * 100 then Outcome.ok (p, tick + 1)
          else
            (p.streamBuffer.Enqueue (some s)).bind (fun q =>
              Player.enqueueLoop am wall rest (index + 1) { p with streamBuffer := q }
                (tick + 1))))

/-- `Player.Enqueue` (player.go:96-112). -/
def Player.Enqueue (p : Player) (am : messages.Audio) (wall : Wall) (tick : Nat) :
    Outcome (Player × Nat) :=
  Player.enqueueLoop am wall am.Left 0 p tick

end player

namespace player

open circularbuffer

/-- The local variables of `Player.Stream` that outlive the drop-stale loop. -/
structure DropState where
  streamBuffer : Queue audio.Sample
  tick : Nat
  now : time.Time
  as : audio.Sample
  droppedSamples : Int
  deriving DecidableEq, Repr

/-- `Peek().(*audio.Sample)`: the type assertion panics on a nil head. -/
def peekSample (q : Queue audio.Sample) : Outcome audio.Sample :=
  (q.Peek).bind (fun v =>
    match v with
    | none => Outcome.panics
    | some s => Outcome.ok s)

/-- The drop-stale loop of `Player.Stream` (player.go:148-153). `fuel` bounds the number
of iterations examined; `none` means the bound was reached. -/
def Player.dropLoop (p : Player) (wall : Wall) : Nat → DropState → Option (Outcome DropState)
  | 0, _ => none
  | fuel + 1, st =>
    if st.now.Sub st.as.Time ≥ p.delayThreshold then
      match st.streamBuffer.Dequeue with
      | Outcome.blocks => some Outcome.blocks
      | Outcome.panics => some Outcome.panics
      | Outcome.ok (none, _) => some Outcome.panics
      | Outcome.ok (some _, q) =>
        let now := p.clock.Now (wall st.tick)
        match peekSample q with
        | Outcome.blocks => some Outcome.blocks
        | Outcome.panics => some Outcome.panics
        | Outcome.ok as =>
          Player.dropLoop p wall fuel
            { streamBuffer := q, tick := st.tick + 1, now := now, as := as,
              droppedSamples := st.droppedSamples + 1 }
    else some (Outcome.ok st)

/-- The number of output slots `Player.Stream` hands to the fill streamer
(player.go:156-167): 0 unless `diff > delayThreshold`, else the smaller of
`requiredSamples` and `SampleRate.N(diff)`. -/
def Player.fillCount (p : Player) (requiredSamples : Int) (diff : Int) : Int :=
  if diff > p.delayThreshold then
    let fillSamples := beep.SampleRate.N p.SampleRate diff
    if requiredSamples < fillSamples then requiredSamples else fillSamples
  else 0

/-- The drain loop of `Player.Stream` (player.go:169-178): `count` slots from index `i`
on are written from the ring; a nil value ends the loop. -/
def drainLoop : Nat → Nat → Queue audio.Sample → List (messages.Float64 × messages.Float64) →
    Outcome (Queue audio.Sample × List (messages.Float64 × messages.Float64))
  | 0, _, q, samples => Outcome.ok (q, samples)
  | count + 1, i, q, samples =>
    match q.Dequeue with
    | Outcome.blocks => Outcome.blocks
    | Outcome.panics => Outcome.panics
    | Outcome.ok (none, q') => Outcome.ok (q', samples)
    | Outcome.ok (some as, q') =>
      if i < samples.length then drainLoop count (i + 1) q' (samples.set i as.Data)
      else Outcome.panics

/-- What a call of `Player.Stream` leaves behind: the output buffer, the player, the
number of wall-clock reads, the two counters, and the returned pair. -/
structure StreamResult where
  samples : List (messages.Float64 × messages.Float64)
  player : Player
  tick : Nat
  fillSamples : Int
  droppedSamples : Int
  n : Int
  ok : Bool
  deriving DecidableEq, Repr

/-- `Player.Stream` (player.go:139-189) on the output buffer `samples`, with the default
fill streamer. `fuel` bounds the drop-stale loop (`none`: bound reached). -/
def Player.Stream (p : Player) (wall : Wall) (tick : Nat) (fuel : Nat)
    (samples : List (messages.Float64 × messages.Float64)) : Option (Outcome StreamResult) :=
  let requiredSamples : Int := samples.length
  let now := p.clock.Now (wall tick)
  match peekSample p.streamBuffer with
  | Outcome.blocks => some Outcome.blocks
  | Outcome.panics => some Outcome.panics
  | Outcome.ok as =>
    match Player.dropLoop p wall fuel
        { streamBuffer := p.streamBuffer, tick := tick + 1, now := now, as := as,
          droppedSamples := 0 } with
    | none => none
    | some Outcome.blocks => some Outcome.blocks
    | some Outcome.panics => some Outcome.panics
    | some (Outcome.ok st) =>
      let diff := st.as.Time.Sub st.now
      let fillSamples := Player.fillCount p requiredSamples diff
      if fillSamples < 0 then some Outcome.panics
      else
        let samples := List.replicate fillSamples.toNat silence ++ samples.drop fillSamples.toNat
        match drainLoop (requiredSamples - fillSamples).toNat fillSamples.toNat
            st.streamBuffer samples with
        | Outcome.blocks => some Outcome.blocks
        | Outcome.panics => some Outcome.panics
        | Outcome.ok (q, samples) =>
          some (Outcome.ok
            { samples := samples
              player := { p with streamBuffer := q }
              tick := st.tick
              fillSamples := fillSamples
              droppedSamples := st.droppedSamples
              n := requiredSamples
              ok := decide (requiredSamples > 0) })

/-- The latency-adjusted clock `T_now` as the specification words it
(`effective_now() = wall_now() - L`), at the `n`-th wall-clock read: the wall clock minus
the stored latency `L`. -/
def Player.nowAt (p : Player) (wall : Wall) (n : Nat) : time.Time :=
  ⟨(wall n).unixNano - p.clock.latency⟩

/-- The drop-stale step as the specification words it ("while `T_now - head ≥ Δ`, discard
the head sample, re-read `head`; count dropped"): the number of leading samples of the ring
content `l` whose age is at least the threshold when they are examined, the first one at
clock read `n`, the next at read `n + 1`, and so on. -/
def staleCount (p : Player) (wall : Wall) : Nat → List audio.Sample → Nat
  | _, [] => 0
  | n, s :: l =>
    if (p.nowAt wall n).Sub s.Time ≥ p.delayThreshold then staleCount p wall (n + 1) l + 1
    else 0

/-- The distance `d = head.time - T_now` measured after the drop-stale step on ring content
`l`, the first clock read being number `n` (0 when every sample is stale). -/
def headDiff (p : Player) (wall : Wall) (n : Nat) (l : List audio.Sample) : Int :=
  match l[staleCount p wall n l]? with
  | none => 0
  | some s => s.Time.Sub (p.nowAt wall (n + staleCount p wall n l))

/-- The fill count as the specification words it: `min(K, ceil(d * SR))` slots when
`d > delayThreshold` (with `d` in nanoseconds and `SR` in samples per second), else 0. -/
def specFillCount (delayThreshold : Int) (K SR : Int) (d : Int) : Int :=
  if d > delayThreshold then min K (-((-(d * SR)) / 1000000000)) else 0

/-- A player with the default format and threshold and a latency estimate of 25 ms, whose
ring of capacity 4 holds one sample, due 10.000001 ms after the instant 1 s. -/
def earlyPlayer : Player :=
  { streamBuffer := ⟨[some ⟨(7, 9), ⟨1010000001⟩⟩, none, none, none], 4, 0, 1, false⟩
    SampleRate := 44100, bufferSize := 442, clock := NewClock 25000000
    delayThreshold := time.Millisecond * 10 }

/-- A player with the default format and threshold and a latency estimate of 25 ms, whose
ring of capacity 4 holds three samples: two that are due 20 ms before the instant 1 s and
one that is due at that instant. -/
def latePlayer : Player :=
  { streamBuffer :=
      ⟨[some ⟨(1, 2), ⟨980000000⟩⟩, some ⟨(3, 4), ⟨980022675⟩⟩, some ⟨(5, 6), ⟨1000000000⟩⟩,
        none], 4, 0, 3, false⟩
    SampleRate := 44100, bufferSize := 1, clock := NewClock 25000000
    delayThreshold := time.Millisecond * 10 }

/-- A wall clock that reads 1.025 s at every read: with a latency of 25 ms the
latency-adjusted clock reads 1 s. -/
def wallAt1025 : Wall := fun _ => ⟨1025000000⟩

end player

/-! ## pkg/server and pkg/client: the traffic handlers -/

namespace gnet

/-- `gnet.Action`. -/
inductive Action where
  | None
  | Close
  | Shutdown
  deriving DecidableEq, Repr

end gnet

namespace server

open messages

/-- What `Server.OnTraffic` leaves behind: the action returned, the connection, and the
bytes handed to `connection.Write` (if any). -/
structure Handled where
  action : gnet.Action
  connection : Conn
  written : Option (List Byte)
  deriving DecidableEq, Repr

/-- `Server.SendTo` (server.go:173-190): the bytes handed to `connection.Write` and whether
the call returned a nil error; `writeOk` is the outcome of the write. -/
def SendTo (P : Proto) (writeOk : Bool) (msg : Message) : Option (List Byte) × Bool :=
  match (ToPacket msg).Bytes P with
  | none => (none, false)
  | some bytes => (some bytes, writeOk)

/-- The reply `Server.OnTraffic` builds for a time probe (server.go:106-114). `now₁` and
`now₂` are what the two calls of `time.Now()` return. -/
def latencyReply (m : Time) (now₁ now₂ : time.Time) : Outcome Latency :=
  (timex.ToTime m.Time).bind (fun sent =>
    let received := now₁
    let latency := received.Sub sent
    Outcome.ok
      { Latency := time.Duration.Nanoseconds latency, Time := some (timex.ToTimestamp now₂) })

/-- `Server.OnTraffic` (server.go:96-127). `now₁` and `now₂` are what the two calls of
`time.Now()` return, `writeOk` whether the reply can be written. -/
def OnTraffic (P : Proto) (c : Conn) (now₁ now₂ : time.Time) (writeOk : Bool) :
    Outcome Handled :=
  match FromConnection P c with
  | (Except.error _, c) =>
    Outcome.ok { action := gnet.Action.None, connection := c, written := none }
  | (Except.ok (Message.time m), c) =>
    (latencyReply m now₁ now₂).bind (fun msg =>
      let r := SendTo P writeOk (Message.latency msg)
      if r.2 = false then
        Outcome.ok { action := gnet.Action.Close, connection := c, written := r.1 }
      else Outcome.ok { action := gnet.Action.None, connection := c, written := r.1 })
  | (Except.ok _, c) =>
    Outcome.ok { action := gnet.Action.None, connection := c, written := none }

end server

namespace client

open messages player

/-- The fields of `Client` (client.go:36-57) that carry data. The `clock` field of the Go
struct points to the clock of `player`; here it is `player.clock`. -/
structure Client where
  player : Player
  reconnectMaxTimes : Int
  reconnectTimes : Int
  shutdown : Bool
  closed : Bool
  deriving DecidableEq, Repr

/-- What `Client.OnTraffic` leaves behind: the action returned, the client, the connection,
and the frame handed to a new `go c.player.Enqueue(m)` task (if any). -/
structure Handled where
  action : gnet.Action
  client : Client
  connection : Conn
  spawned : Option Audio
  deriving DecidableEq, Repr

/-- `Client.OnTraffic` (client.go:148-181); `now` is what the one call of `time.Now()` of
the branch taken returns. -/
def OnTraffic (P : Proto) (c : Client) (con : Conn) (now : time.Time) : Outcome Handled :=
  match FromConnection P con with
  | (Except.error _, con) =>
    Outcome.ok { action := gnet.Action.Close, client := c, connection := con, spawned := none }
  | (Except.ok (Message.audio m), con) =>
    let samples : Int := m.Left.length
    (c.player.SampleDuration samples).bind (fun sampleDuration =>
      (timex.ToTime m.Time).bind (fun sent =>
        let playbackTime := sent.Add sampleDuration
        let received := c.player.clock.Now now
        let diff := received.Sub playbackTime
        if diff > time.Second then
          Outcome.ok
            { action := gnet.Action.None, client := c, connection := con, spawned := none }
        else
          Outcome.ok
            { action := gnet.Action.None, client := c, connection := con, spawned := some m }))
  | (Except.ok (Message.latency m), con) =>
    (c.player.UpdateLatency m now).bind (fun r =>
      Outcome.ok
        { action := gnet.Action.None, client := { c with player := r.1 }, connection := con,
          spawned := none })
  | (Except.ok (Message.time _), con) =>
    Outcome.ok { action := gnet.Action.None, client := c, connection := con, spawned := none }

/-- `Client.OnTraffic` followed by the `Player.Enqueue` task it starts, run to its end;
`wall` is the wall clock of that task. A panic in the task ends the process like one in
the handler. -/
def handleTraffic (P : Proto) (c : Client) (con : Conn) (now : time.Time) (wall : Wall) :
    Outcome (gnet.Action × Client × Conn) :=
  (OnTraffic P c con now).bind (fun h =>
    match h.spawned with
    | none => Outcome.ok (h.action, h.client, h.connection)
    | some m =>
      (h.client.player.Enqueue m wall 0).bind (fun r =>
        Outcome.ok (h.action, { h.client with player := r.1 }, h.connection)))

/-- The time probe `Client.OnTick` sends (client.go:222-224), `now` being what `time.Now()`
returns. -/
def timeProbe (now : time.Time) : Time := { Time := some (timex.ToTimestamp now) }

/-- One probe/reply exchange over a path whose true one-way latency is `Lstar` in both
directions, the server clock being `θ` ahead of the client clock: the client sends the
probe at its instant `t`, the server receives it `Lstar` later and replies at that
instant, the client receives the reply another `Lstar` later and updates its clock. -/
def exchange (θ Lstar : Int) (c : Clock) (t : Int) : Outcome Clock :=
  (server.latencyReply (timeProbe ⟨t⟩) ⟨t + Lstar + θ⟩ ⟨t + Lstar + θ⟩).bind (fun reply =>
    (c.UpdateLatency reply ⟨t + 2 * Lstar⟩).bind (fun r => Outcome.ok r.1))

/-- The exchanges started at the client instants `ts`, one after the other. -/
def exchanges (θ Lstar : Int) (c : Clock) (ts : List Int) : Outcome Clock :=
  ts.foldl (fun acc t => acc.bind (fun c => exchange θ Lstar c t)) (Outcome.ok c)

/-- A stand-in for the protobuf library that decodes every Audio payload to a frame with
one left and no right value, every Time and Latency payload to a message without its time
field; used to instantiate statements about the handlers. -/
def bareProto : Proto where
  Marshal := fun _ => some []
  UnmarshalAudio := fun _ => some ⟨[1], [], some ⟨0, 0⟩⟩
  UnmarshalTime := fun _ => some ⟨none⟩
  UnmarshalLatency := fun _ => some ⟨0, none⟩

/-- A client with default options whose ring has capacity 4. -/
def demoClient : Client :=
  { player :=
      { streamBuffer := circularbuffer.Queue.Clear ⟨[], 4, 0, 0, false⟩, SampleRate := 44100,
        bufferSize := 256, clock := NewClock (time.Millisecond * 5),
        delayThreshold := time.Millisecond * 10 }
    reconnectMaxTimes := 3, reconnectTimes := 0, shutdown := false, closed := true }

end client

/-! ## pkg/client: the reconnect loop -/

namespace client

/-- `Client.Connect` (client.go:81-114): the client after the call and whether the returned
error is nil. `dial` tells whether `gnet.NewClient`, `Dial` and `Start` all succeed; the
attempt counter is increased before any of them is tried. -/
def Client.Connect (c : Client) (dial : Bool) : Client × Bool :=
  let c := { c with reconnectTimes := c.reconnectTimes + 1 }
  if dial = false then (c, false)
  else ({ c with closed := false, shutdown := false, reconnectTimes := 0 }, true)

/-- What one pass through the body of the `for` loop of `Client.Run` does. -/
inductive Iteration where
  | exits
  | dials (ok : Bool) (c : Client)
  | sleeps (c : Client)
  deriving DecidableEq, Repr

/-- One pass through the body of the `for` loop of `Client.Run` (client.go:117-137);
`dial` is the outcome of the dial, should one be made. -/
def Client.iterate (c : Client) (dial : Bool) : Iteration :=
  if c.shutdown then Iteration.exits
  else if c.closed then
    if c.reconnectTimes ≥ c.reconnectMaxTimes then Iteration.exits
    else
      let r := c.Connect dial
      Iteration.dials r.2 r.1
  else Iteration.sleeps c

/-- `Client.Run` (client.go:116-138) with at most `fuel` passes through the loop: the
client and the number of dials made when the loop exits, `none` when it has not exited
after `fuel` passes. `dial n` is the outcome of the dial number `n` (from 0); `dials` is
the number of dials made so far. -/
def Client.Run (dial : Nat → Bool) : Nat → Client → Nat → Option (Client × Nat)
  | 0, _, _ => none
  | fuel + 1, c, dials =>
    match c.iterate (dial dials) with
    | Iteration.exits => some (c, dials)
    | Iteration.dials _ c' => Client.Run dial fuel c' (dials + 1)
    | Iteration.sleeps c' => Client.Run dial fuel c' dials

/-- A stand-in for the protobuf library that decodes every Audio payload to a frame with
one left and one right value stamped with the Unix epoch; used to instantiate statements
about late frames. -/
def lateProto : messages.Proto where
  Marshal := fun _ => some []
  UnmarshalAudio := fun _ => some ⟨[1], [2], some ⟨0, 0⟩⟩
  UnmarshalTime := fun _ => some ⟨none⟩
  UnmarshalLatency := fun _ => some ⟨0, none⟩

/-- The client `demoClient` with a latency estimate of 1.5 s. -/
def laggingClient : Client :=
  { demoClient with player := { demoClient.player with clock := player.NewClock 1500000000 } }

end client

/-! ## Theorems: pkg/circularbuffer -/

namespace circularbuffer

variable {α : Type}

theorem slot_lt {C r i : Nat} (hr : r < C) (hi : i ≤ C) : slot C r i < C := by
  unfold slot; split <;> omega

theorem slot_inj {C r i j : Nat} (hi : i < C) (hj : j < C)
    (h : slot C r i = slot C r j) : i = j := by
  unfold slot at h; split at h <;> split at h <;> omega

/-- A queue made by `New C` holds nothing. -/
theorem New_holds (C : Nat) (hC : 1 ≤ C) :
    ∃ q : Queue α, New C = Outcome.ok q ∧ Holds q C [] := by
  have hn : New (α := α) C = Outcome.ok (Queue.Clear ⟨[], C, 0, 0, false⟩) := by
    unfold New; rw [if_neg (by omega)]
  refine ⟨_, hn, ?_⟩
  refine ⟨rfl, by simp [Queue.Clear], by simp [Queue.Clear]; omega, by simp, ?_, ?_, ?_⟩
  · simp [Queue.Clear, slot]
  · simp [Queue.Clear]; omega
  · intro i hi; simp at hi

/-- `Size` of a queue that holds `l` is the length of `l`. -/
theorem Holds.size_eq {q : Queue α} {C : Nat} {l : List α} (h : Holds q C l) :
    q.Size = l.length := by
  have h1 := h.cap; have h2 := h.rd; have h3 := h.sz; have h4 := h.wr; have h5 := h.full
  unfold Queue.Size Queue.Full
  unfold slot at h4
  by_cases hl : l.length = C
  · simp [hl] at h5
    split_ifs at h4 ⊢ <;> simp_all
  · simp [hl] at h5
    split_ifs at h4 ⊢ <;> simp_all <;> omega

theorem Holds.empty_iff {q : Queue α} {C : Nat} {l : List α} (h : Holds q C l) :
    q.Empty = l.isEmpty := by
  unfold Queue.Empty
  rw [h.size_eq]
  cases l <;> simp
  omega

/-- `Enqueue` of a non-nil value on a queue that is not full returns and appends the value. -/
theorem Holds.enqueue {q : Queue α} {C : Nat} {l : List α} (h : Holds q C l)
    (hl : l.length < C) (v : α) :
    ∃ q', q.Enqueue (some v) = Outcome.ok q' ∧ Holds q' C (l ++ [v]) := by
  have h1 := h.cap; have h2 := h.rd; have h4 := h.wr; have h5 := h.full
  have h6 := h.len
  have hf : q.isFull = false := by rw [h5]; simp; omega
  have hw : q.writerPosition < C := by rw [h4]; exact slot_lt h2 (by omega)
  have hq : q.Enqueue (some v) = Outcome.ok
      { q with
        buffer := q.buffer.set q.writerPosition (some v)
        writerPosition := if q.writerPosition + 1 ≥ q.maxSize then 0 else q.writerPosition + 1
        isFull := if (if q.writerPosition + 1 ≥ q.maxSize then 0 else q.writerPosition + 1)
          = q.readerPosition then true else q.isFull } := by
    unfold Queue.Enqueue Queue.Full
    rw [if_neg (by simp [hf]), if_pos (by omega)]
  refine ⟨_, hq, ?_⟩
  refine ⟨h1, by simp [h6], h2, by simp; omega, ?_, ?_, ?_⟩
  · simp only [List.length_append, List.length_singleton]
    rw [h1, h4]; unfold slot; split_ifs <;> omega
  · simp only [List.length_append, List.length_singleton, hf]
    rw [h1, h4]; unfold slot
    by_cases hc : l.length + 1 = C
    · simp [hc]; split_ifs <;> omega
    · simp [hc]; split_ifs <;> omega
  · intro i hi
    simp only [List.length_append, List.length_singleton] at hi
    by_cases hil : i = l.length
    · subst hil
      simp only [← h4]
      rw [List.getElem?_set_self (by omega)]
      simp
    · have hi' : i < l.length := by omega
      have hne : q.writerPosition ≠ slot C q.readerPosition i := by
        rw [h4]; intro hh
        exact hil (slot_inj (by omega) (by omega) hh).symm
      simp only []
      rw [List.getElem?_set_ne hne, h.item i hi', List.getElem?_append_left hi']

/-- `Enqueue` on a full queue waits. -/
theorem Holds.enqueue_blocks {q : Queue α} {C : Nat} {l : List α} (h : Holds q C l)
    (hl : l.length = C) (x : Option α) : q.Enqueue x = Outcome.blocks := by
  have h5 := h.full
  simp [Queue.Enqueue, Queue.Full, h5, hl]

/-- `Dequeue` on a queue holding `x :: l` returns `x` and leaves `l`. -/
theorem Holds.dequeue {q : Queue α} {C : Nat} {x : α} {l : List α}
    (h : Holds q C (x :: l)) :
    ∃ q', q.Dequeue = Outcome.ok (some x, q') ∧ Holds q' C l := by
  have h1 := h.cap; have h2 := h.rd; have h3 := h.sz; have h4 := h.wr
  have h6 := h.len
  have he : q.Empty = false := by rw [h.empty_iff]; simp
  have h0 := h.item 0 (by simp)
  have hs0 : slot C q.readerPosition 0 = q.readerPosition := by unfold slot; simp [h2]
  rw [hs0] at h0
  simp only [List.length_cons] at h3 h4
  simp only [List.getElem?_cons_zero] at h0
  have hq : q.Dequeue = Outcome.ok (some x,
      { q with
        buffer := q.buffer.set q.readerPosition none
        readerPosition := if q.readerPosition + 1 ≥ q.maxSize then 0 else q.readerPosition + 1
        isFull := false }) := by
    unfold Queue.Dequeue
    rw [if_neg (by simp [he]), h0]
  refine ⟨_, hq, ?_⟩
  refine ⟨h1, by simp [h6], ?_, by omega, ?_, ?_, ?_⟩
  · simp only [h1]; split_ifs <;> omega
  · simp only [h1]; rw [h4]; unfold slot; split_ifs <;> omega
  · simp; omega
  · intro i hi
    have hne : q.readerPosition ≠
        slot C (if q.readerPosition + 1 ≥ C then 0 else q.readerPosition + 1) i := by
      unfold slot; split_ifs <;> omega
    have hsl : slot C (if q.readerPosition + 1 ≥ C then 0 else q.readerPosition + 1) i =
        slot C q.readerPosition (i + 1) := by
      unfold slot; split_ifs <;> omega
    simp only [h1]
    rw [List.getElem?_set_ne hne, hsl, h.item (i + 1) (by simp; omega)]
    simp

/-- `Dequeue` on an empty queue waits. -/
theorem Holds.dequeue_blocks {q : Queue α} {C : Nat} (h : Holds q C []) :
    q.Dequeue = Outcome.blocks := by
  have he : q.Empty = true := by rw [h.empty_iff]; simp
  simp [Queue.Dequeue, he]

theorem run_snoc (C : Nat) (cs : List (Call α)) (c : Call α) :
    run C (cs ++ [c]) = (run C cs).bind (fun st => step st c) := by
  simp [run, List.foldl_append]

theorem enqueued_snoc_enqueue (cs : List (Call α)) (v : α) :
    enqueued (cs ++ [Call.enqueue v]) = enqueued cs ++ [v] := by
  simp [enqueued, List.filterMap_append]

theorem enqueued_snoc_dequeue (cs : List (Call α)) :
    enqueued (cs ++ [Call.dequeue]) = enqueued cs := by
  simp [enqueued, List.filterMap_append]

theorem dequeues_snoc_enqueue (cs : List (Call α)) (v : α) :
    dequeues (cs ++ [Call.enqueue v]) = dequeues cs := by
  simp [dequeues, List.filter_append]

theorem dequeues_snoc_dequeue (cs : List (Call α)) :
    dequeues (cs ++ [Call.dequeue]) = dequeues cs + 1 := by
  simp [dequeues, List.filter_append]

/-- A run from `New C` never panics, and when it returns its state tracks the calls. -/
theorem run_tracks (C : Nat) (hC : 1 ≤ C) (cs : List (Call α)) :
    run C cs ≠ Outcome.panics ∧ ∀ st, run C cs = Outcome.ok st → Tracks C cs st := by
  induction cs using List.reverseRecOn with
  | nil =>
    obtain ⟨q, hq, hh⟩ := New_holds (α := α) C hC
    constructor
    · simp [run, hq, Outcome.bind]
    · intro st hst
      simp [run, hq, Outcome.bind] at hst
      subst hst
      exact ⟨by simp [dequeues], by simpa [enqueued, dequeues] using hh, by simp [enqueued]⟩
  | append_singleton cs c ih =>
    rw [run_snoc]
    obtain ⟨ih1, ih2⟩ := ih
    cases hr : run C cs with
    | panics => exact absurd hr ih1
    | blocks => simp [Outcome.bind]
    | ok st =>
      obtain ⟨t1, t2, t3⟩ := ih2 st hr
      cases c with
      | enqueue v =>
        by_cases hfull : ((enqueued cs).drop (dequeues cs)).length < C
        · obtain ⟨q', hq', hh'⟩ := t2.enqueue hfull v
          simp only [Outcome.bind, step, hq']
          refine ⟨by simp, ?_⟩
          intro st' hst'
          simp at hst'
          subst hst'
          refine ⟨?_, ?_, ?_⟩
          · rw [dequeues_snoc_enqueue, enqueued_snoc_enqueue]; simp; omega
          · rw [dequeues_snoc_enqueue, enqueued_snoc_enqueue]
            rw [List.drop_append_of_le_length t1]; exact hh'
          · rw [dequeues_snoc_enqueue, enqueued_snoc_enqueue]
            rw [List.take_append_of_le_length t1]; exact t3
        · have hb := t2.enqueue_blocks (by have := t2.sz; omega) (some v)
          simp [Outcome.bind, step, hb]
      | dequeue =>
        cases hd : (enqueued cs).drop (dequeues cs) with
        | nil =>
          rw [hd] at t2
          simp [Outcome.bind, step, t2.dequeue_blocks]
        | cons x l =>
          rw [hd] at t2
          obtain ⟨q', hq', hh'⟩ := t2.dequeue
          simp only [Outcome.bind, step, hq']
          refine ⟨by simp, ?_⟩
          intro st' hst'
          simp at hst'
          subst hst'
          have hlt : dequeues cs < (enqueued cs).length := by
            by_contra hcon
            rw [List.drop_eq_nil_of_le (by omega)] at hd
            cases hd
          have hx : (enqueued cs)[dequeues cs]? = some x := by
            have := congrArg (fun m => m[0]?) hd
            simpa using this
          refine ⟨?_, ?_, ?_⟩
          · rw [dequeues_snoc_dequeue, enqueued_snoc_dequeue]; omega
          · rw [dequeues_snoc_dequeue, enqueued_snoc_dequeue]
            have : List.drop (dequeues cs + 1) (enqueued cs) = l := by
              rw [← List.drop_drop, hd]; rfl
            rw [this]; exact hh'
          · rw [dequeues_snoc_dequeue, enqueued_snoc_dequeue, t3]
            rw [List.take_succ, hx]
            simp

theorem Admissible.init {C : Nat} {cs : List (Call α)} {c : Call α}
    (h : Admissible C (cs ++ [c])) : Admissible C cs := by
  intro n hn
  have := h n (by simp; omega)
  rwa [List.take_append_of_le_length hn] at this

theorem Admissible.last {C : Nat} {cs : List (Call α)} (h : Admissible C cs) :
    dequeues cs ≤ (enqueued cs).length ∧ (enqueued cs).length ≤ dequeues cs + C := by
  simpa using h cs.length (le_refl _)

/-- An admissible sequence of calls never waits: the run returns. -/
theorem run_returns (C : Nat) (hC : 1 ≤ C) (cs : List (Call α)) (ha : Admissible C cs) :
    ∃ st, run C cs = Outcome.ok st := by
  induction cs using List.reverseRecOn with
  | nil =>
    obtain ⟨q, hq, -⟩ := New_holds (α := α) C hC
    exact ⟨(q, []), by simp [run, hq, Outcome.bind]⟩
  | append_singleton cs c ih =>
    obtain ⟨st, hst⟩ := ih ha.init
    obtain ⟨t1, t2, -⟩ := (run_tracks C hC cs).2 st hst
    have hlast := ha.last
    rw [run_snoc, hst]
    cases c with
    | enqueue v =>
      rw [dequeues_snoc_enqueue, enqueued_snoc_enqueue] at hlast
      simp at hlast
      obtain ⟨q', hq', -⟩ := t2.enqueue (by simp; omega) v
      exact ⟨(q', st.2), by simp [Outcome.bind, step, hq']⟩
    | dequeue =>
      rw [dequeues_snoc_dequeue, enqueued_snoc_dequeue] at hlast
      cases hd : (enqueued cs).drop (dequeues cs) with
      | nil =>
        have := congrArg List.length hd
        simp at this; omega
      | cons x l =>
        rw [hd] at t2
        obtain ⟨q', hq', -⟩ := t2.dequeue
        exact ⟨(q', st.2 ++ [some x]), by simp [Outcome.bind, step, hq']⟩

/-- C1: on a queue made by `New C` (C ≥ 1), for every sequence of `Enqueue` (of non-nil
values) and `Dequeue` calls: no call panics; if every prefix keeps
dequeues ≤ enqueues ≤ dequeues + C, no call has to wait and the run returns; and whenever
the run returns (every `Enqueue` found the queue not full, every `Dequeue` found it not
empty), each `Dequeue` returned a value and the i-th `Dequeue` returned the i-th enqueued
value. -/
theorem fifo_order (C : Nat) (hC : 1 ≤ C) (cs : List (Call α)) :
    run C cs ≠ Outcome.panics ∧
    (Admissible C cs → ∃ q outs, run C cs = Outcome.ok (q, outs)) ∧
    ∀ q outs, run C cs = Outcome.ok (q, outs) →
      outs.length = dequeues cs ∧
      outs = ((enqueued cs).take (dequeues cs)).map some ∧
      ∀ i, i < dequeues cs → outs[i]? = some ((enqueued cs)[i]?) := by
  refine ⟨(run_tracks C hC cs).1, ?_, ?_⟩
  · intro ha
    obtain ⟨⟨q, outs⟩, hst⟩ := run_returns C hC cs ha
    exact ⟨q, outs, hst⟩
  · intro q outs h
    obtain ⟨t1, -, t3⟩ := (run_tracks C hC cs).2 _ h
    simp only at t3
    refine ⟨by rw [t3]; simp; omega, t3, ?_⟩
    intro i hi
    rw [t3]
    simp [List.getElem?_take, hi]
    cases hh : (enqueued cs)[i]? with
    | none => rw [List.getElem?_eq_none_iff] at hh; omega
    | some v => exact ⟨v, rfl, rfl⟩

/-- Witness for C1: capacity 2, five enqueues interleaved with five dequeues, so that both
cursors wrap around the end of the buffer twice. -/
theorem fifo_order_witness :
    run 2 wrapCalls = Outcome.ok (⟨[none, none], 2, 1, 1, false⟩,
        [some 10, some 20, some 30, some 40, some 50]) ∧
    [some 10, some 20, some 30, some 40, some 50] =
      ((enqueued wrapCalls).take (dequeues wrapCalls)).map some :=
  ⟨by decide,
   ((fifo_order 2 (by decide) wrapCalls).2.2 ⟨[none, none], 2, 1, 1, false⟩
      [some 10, some 20, some 30, some 40, some 50] (by decide)).2.1⟩

/-- C2: for C ≥ 1 and every sequence of calls whose prefixes keep
dequeues ≤ enqueues ≤ dequeues + C, the run from `New C` returns, and in the state reached
`Size()` is the number of enqueues minus the number of dequeues and lies in `[0, C]`. -/
theorem size_counts (C : Nat) (hC : 1 ≤ C) (cs : List (Call α)) (ha : Admissible C cs) :
    ∃ q outs, run C cs = Outcome.ok (q, outs) ∧
      q.Size = ((enqueued cs).length : Int) - (dequeues cs : Int) ∧
      0 ≤ q.Size ∧ q.Size ≤ (C : Int) := by
  obtain ⟨⟨q, outs⟩, hst⟩ := run_returns C hC cs ha
  obtain ⟨t1, t2, -⟩ := (run_tracks C hC cs).2 _ hst
  have hs := t2.size_eq
  have hz := t2.sz
  simp only [List.length_drop] at hs hz
  refine ⟨q, outs, hst, ?_, ?_, ?_⟩ <;> omega

/-- Witness for C2: capacity 3; after four enqueues and two dequeues the writer cursor (1)
is numerically behind the reader cursor (2) and `Size()` is 2. -/
theorem size_counts_witness :
    Admissible 3 behindCalls ∧
    ∃ q outs, run 3 behindCalls = Outcome.ok (q, outs) ∧
      q.Size = ((enqueued behindCalls).length : Int) - (dequeues behindCalls : Int) ∧
      0 ≤ q.Size ∧ q.Size ≤ ((3 : Nat) : Int) :=
  ⟨by decide, size_counts 3 (by decide) behindCalls (by decide)⟩

end circularbuffer

/-! ## Theorems: pkg/messages -/

theorem foldl_bytes_lt (l : List Byte) (acc : Nat) :
    l.foldl (fun a x => a * 256 + x.val) acc < (acc + 1) * 256 ^ l.length := by
  induction l generalizing acc with
  | nil => simp
  | cons x l ih =>
    have hx := x.isLt
    calc (x :: l).foldl (fun a x => a * 256 + x.val) acc
        < (acc * 256 + x.val + 1) * 256 ^ l.length := ih _
      _ ≤ ((acc + 1) * 256) * 256 ^ l.length := Nat.mul_le_mul_right _ (by omega)
      _ = (acc + 1) * 256 ^ (x :: l).length := by
          rw [List.length_cons, pow_succ]; ring

/-- `Uint64` reads an unsigned 64-bit value. -/
theorem Uint64_lt (b : List Byte) : Uint64 b < 2 ^ 64 := by
  have h := foldl_bytes_lt (b.take 8) 0
  have hl : (b.take 8).length ≤ 8 := by simp
  calc Uint64 b < (0 + 1) * 256 ^ (b.take 8).length := h
    _ ≤ (0 + 1) * 256 ^ 8 := Nat.mul_le_mul_left _ (Nat.pow_le_pow_right (by decide) hl)
    _ = 2 ^ 64 := by norm_num

theorem PutUint64_length (v : Nat) : (PutUint64 v).length = 8 := rfl

/-- Reading back what `PutUint64` wrote gives the value modulo 2^64. -/
theorem Uint64_PutUint64 (v : Nat) (rest : List Byte) :
    Uint64 (PutUint64 v ++ rest) = v % 2 ^ 64 := by
  simp only [Uint64, PutUint64, byte, List.cons_append, List.nil_append, List.take_succ_cons,
    List.take_zero, List.foldl_cons, List.foldl_nil]
  norm_num
  omega

theorem toInt64_of_lt {u : Nat} (h : u < 2 ^ 63) : toInt64 u = (u : Int) := by
  unfold toInt64
  split <;> omega

theorem toUint64_natCast {n : Nat} (h : n < 2 ^ 64) : toUint64 (n : Int) = n := by
  unfold toUint64
  omega

theorem toInt64_eq_iff {u : Nat} (hu : u < 2 ^ 64) (k : Nat) (hk : k < 2 ^ 63) :
    toInt64 u = (k : Int) ↔ u = k := by
  unfold toInt64
  split <;> omega

namespace messages

/-- The bytes of an encoded message: tag, length, payload. -/
theorem Bytes_eq (P : Proto) (m : Message) (payload : List Byte)
    (hm : P.Marshal m = some payload) :
    (ToPacket m).Bytes P =
      some (PutUint64 (tagOf m) ++ PutUint64 (toUint64 (payload.length : Int)) ++ payload) := by
  have hmb : (ToPacket m).MessageBytes P = some payload := by
    cases m <;> simpa [Packet.MessageBytes, ToBytes, ToPacket] using hm
  have hty : (ToPacket m).MessageTypeBytes = PutUint64 (tagOf m) := by
    cases m <;> rfl
  simp only [Packet.Bytes, Packet.HeaderBytes, Packet.MessageLengthBytes, hmb, hty]
  simp [copyInto, PutUint64]

/-- C4: for every message `m` whose serialization `payload` succeeds, `ToPacket(m).Bytes()`
is the 8-byte big-endian tag (0x10 Audio, 0x20 Time, 0x30 Latency), the 8-byte big-endian
value `len(payload)`, then `payload`: 16 + len(payload) bytes in all. -/
theorem wire_layout (P : Proto) (m : Message) (payload : List Byte)
    (hm : P.Marshal m = some payload) (hlen : payload.length < 2 ^ 63) :
    ∃ bytes, (ToPacket m).Bytes P = some bytes ∧
      bytes.length = 16 + payload.length ∧
      bytes.take 8 = PutUint64 (tagOf m) ∧
      Uint64 (bytes.take 8) = tagOf m ∧
      (bytes.drop 8).take 8 = PutUint64 payload.length ∧
      Uint64 ((bytes.drop 8).take 8) = payload.length ∧
      bytes.drop 16 = payload := by
  have hu : toUint64 (payload.length : Int) = payload.length := toUint64_natCast (by omega)
  have ht : tagOf m % 2 ^ 64 = tagOf m := by cases m <;> rfl
  refine ⟨_, Bytes_eq P m payload hm, ?_, ?_, ?_, ?_, ?_, ?_⟩
  · simp [PutUint64_length]; omega
  · rw [List.append_assoc, List.take_left' (PutUint64_length _)]
  · rw [List.append_assoc, List.take_left' (PutUint64_length _)]
    have := Uint64_PutUint64 (tagOf m) []
    rw [List.append_nil] at this
    rw [this, ht]
  · rw [List.append_assoc, List.drop_left' (PutUint64_length _),
      List.take_left' (PutUint64_length _), hu]
  · rw [List.append_assoc, List.drop_left' (PutUint64_length _),
      List.take_left' (PutUint64_length _), hu]
    have := Uint64_PutUint64 payload.length []
    rw [List.append_nil] at this
    rw [this]; omega
  · rw [List.drop_left' (by simp [PutUint64_length])]

/-- Witness for C4: a time probe carrying 1700000000 s under the stand-in serializer. -/
theorem wire_layout_witness :
    demoProto.Marshal (Message.time ⟨some ⟨1700000000, 0⟩⟩) =
      some [0, 0, 0, 0, 0x65, 0x53, 0xF1, 0x00] ∧
    ∃ bytes, (ToPacket (Message.time ⟨some ⟨1700000000, 0⟩⟩)).Bytes demoProto = some bytes ∧
      bytes.length = 16 + 8 ∧
      bytes.take 8 = PutUint64 0x20 ∧
      Uint64 (bytes.take 8) = 0x20 ∧
      (bytes.drop 8).take 8 = PutUint64 8 ∧
      Uint64 ((bytes.drop 8).take 8) = 8 ∧
      bytes.drop 16 = [0, 0, 0, 0, 0x65, 0x53, 0xF1, 0x00] :=
  ⟨by decide,
   wire_layout demoProto (Message.time ⟨some ⟨1700000000, 0⟩⟩)
     [0, 0, 0, 0, 0x65, 0x53, 0xF1, 0x00] (by decide) (by decide)⟩

/-- C6: on a stream of at least 16 bytes whose first 8 bytes, read big-endian, are none of
0x10, 0x20, 0x30, `FromConnection` returns the unsupported-type error and the connection
is exactly as before: no byte of header or body is consumed. -/
theorem unknown_tag_rejected (P : Proto) (c : Conn) (h16 : 16 ≤ c.inbound.length)
    (htag : Uint64 (c.inbound.take 8) ≠ 0x10 ∧ Uint64 (c.inbound.take 8) ≠ 0x20 ∧
      Uint64 (c.inbound.take 8) ≠ 0x30) :
    FromConnection P c =
      (Except.error (DecodeError.unsupportedType (toInt64 (Uint64 (c.inbound.take 8)))), c) := by
  obtain ⟨h1, h2, h3⟩ := htag
  have hlt := Uint64_lt (c.inbound.take 8)
  have hpeek : c.Peek 16 = some (c.inbound.take 16) := by
    unfold Conn.Peek
    rw [if_neg (by omega), if_neg (by omega)]
    rfl
  have htt : (c.inbound.take 16).take 8 = c.inbound.take 8 := by
    rw [List.take_take]; rfl
  have n1 : ¬ toInt64 (Uint64 (c.inbound.take 8)) = AudioType := by
    intro h
    exact h1 ((toInt64_eq_iff hlt 0x10 (by norm_num)).1 (by simpa [AudioType] using h))
  have n2 : ¬ toInt64 (Uint64 (c.inbound.take 8)) = TimeType := by
    intro h
    exact h2 ((toInt64_eq_iff hlt 0x20 (by norm_num)).1 (by simpa [TimeType] using h))
  have n3 : ¬ toInt64 (Uint64 (c.inbound.take 8)) = LatencyType := by
    intro h
    exact h3 ((toInt64_eq_iff hlt 0x30 (by norm_num)).1 (by simpa [LatencyType] using h))
  unfold FromConnection
  simp only [hpeek, htt]
  rw [if_neg (by tauto)]

/-- Witness for C6: a header with tag 0x99 and length field 3, followed by three bytes. -/
theorem unknown_tag_rejected_witness :
    FromConnection demoProto ⟨PutUint64 0x99 ++ PutUint64 3 ++ [1, 2, 3]⟩ =
      (Except.error (DecodeError.unsupportedType
        (toInt64 (Uint64 ((PutUint64 0x99 ++ PutUint64 3 ++ [1, 2, 3]).take 8)))),
       ⟨PutUint64 0x99 ++ PutUint64 3 ++ [1, 2, 3]⟩) :=
  unknown_tag_rejected demoProto ⟨PutUint64 0x99 ++ PutUint64 3 ++ [1, 2, 3]⟩
    (by decide) (by decide)

theorem Peek_header (v w : Nat) (tail : List Byte) :
    Conn.Peek ⟨PutUint64 v ++ PutUint64 w ++ tail⟩ 16 = some (PutUint64 v ++ PutUint64 w) := by
  unfold Conn.Peek
  rw [if_neg (by simp [PutUint64_length]; omega), if_neg (by omega)]
  simp [PutUint64]

theorem Discard_header (v w : Nat) (tail : List Byte) :
    (Conn.Discard ⟨PutUint64 v ++ PutUint64 w ++ tail⟩ 16).2 = ⟨tail⟩ := by
  unfold Conn.Discard
  rw [if_neg (by simp [PutUint64_length]; omega)]
  simp [PutUint64]

theorem header_type (v w : Nat) (hv : v < 2 ^ 63) :
    toInt64 (Uint64 ((PutUint64 v ++ PutUint64 w).take 8)) = (v : Int) := by
  rw [List.take_left' (PutUint64_length _)]
  have := Uint64_PutUint64 v []
  rw [List.append_nil] at this
  rw [this, Nat.mod_eq_of_lt (by omega), toInt64_of_lt hv]

theorem header_length (v w : Nat) (hw : w < 2 ^ 63) :
    toInt64 (Uint64 (((PutUint64 v ++ PutUint64 w).drop 8).take 8)) = (w : Int) := by
  rw [List.drop_left' (PutUint64_length _), List.take_of_length_le (by simp [PutUint64_length])]
  have := Uint64_PutUint64 w []
  rw [List.append_nil] at this
  rw [this, Nat.mod_eq_of_lt (by omega), toInt64_of_lt hw]

theorem tagOf_known (m : Message) :
    ((tagOf m : Nat) : Int) = AudioType ∨ ((tagOf m : Nat) : Int) = TimeType ∨
      ((tagOf m : Nat) : Int) = LatencyType := by
  cases m <;> simp [tagOf, AudioType, TimeType, LatencyType]

/-- A frame with a known tag whose length field `len` exceeds the body bytes present makes
`FromConnection` return the reading-message error with the 16 header bytes already
discarded: only `body` is left. -/
theorem short_body_drops_header (P : Proto) (m : Message) (len : Nat) (body : List Byte)
    (hlen : len < 2 ^ 63) (hshort : body.length < len) :
    FromConnection P ⟨PutUint64 (tagOf m) ++ PutUint64 len ++ body⟩ =
      (Except.error DecodeError.readingMessage, ⟨body⟩) ∧
    (⟨body⟩ : Conn) ≠ ⟨PutUint64 (tagOf m) ++ PutUint64 len ++ body⟩ := by
  have ht : tagOf m < 2 ^ 63 := by cases m <;> simp [tagOf]
  constructor
  · unfold FromConnection
    simp only [Peek_header, Discard_header, header_type _ _ ht, header_length _ _ hlen]
    rw [if_pos (tagOf_known m)]
    have hp : Conn.Peek ⟨body⟩ (len : Int) = none := by
      unfold Conn.Peek
      rw [if_pos (by simp; omega)]
    simp only [hp]
  · intro h
    have := congrArg (fun c => c.inbound.length) h
    simp [PutUint64_length] at this
    omega

/-- An Audio header announcing 5 payload bytes, followed by only 3. -/
theorem short_body_drops_header_example :
    FromConnection demoProto ⟨PutUint64 0x10 ++ PutUint64 5 ++ [1, 2, 3]⟩ =
      (Except.error DecodeError.readingMessage, ⟨[1, 2, 3]⟩) ∧
    (⟨[1, 2, 3]⟩ : Conn) ≠ ⟨PutUint64 0x10 ++ PutUint64 5 ++ [1, 2, 3]⟩ :=
  short_body_drops_header demoProto (Message.audio ⟨[], [], none⟩) 5 [1, 2, 3]
    (by decide) (by decide)

/-- C3 (the code at the failing input, in general form): when the serialized payload of
`m` is empty and at least one more byte follows the frame on the stream, `FromConnection`
does not return `m`: `Peek(0)` hands back everything buffered, the length check fails, and
the header is already discarded. -/
theorem empty_payload_rejected (P : Proto) (m : Message) (rest : List Byte)
    (hm : P.Marshal m = some []) (hrest : rest ≠ []) :
    ∃ bytes, (ToPacket m).Bytes P = some bytes ∧
      FromConnection P ⟨bytes ++ rest⟩ =
        (Except.error (DecodeError.lengthMismatch 0 (rest.length : Int)), ⟨rest⟩) := by
  have ht : tagOf m < 2 ^ 63 := by cases m <;> simp [tagOf]
  have hb := Bytes_eq P m [] hm
  have hz : toUint64 (([] : List Byte).length : Int) = 0 := by decide
  rw [hz, List.append_nil] at hb
  refine ⟨_, hb, ?_⟩
  unfold FromConnection
  simp only [Peek_header, Discard_header, header_type _ _ ht,
    header_length _ 0 (by norm_num)]
  rw [if_pos (tagOf_known m)]
  have hp : Conn.Peek ⟨rest⟩ ((0 : Nat) : Int) = some rest := by
    unfold Conn.Peek
    rw [if_neg (by simp), if_pos (by simp)]
  have hl : ¬ (rest.length : Int) = ((0 : Nat) : Int) := by
    cases rest with
    | nil => exact absurd rfl hrest
    | cons x xs => simp; omega
  simp only [hp, ne_eq, hl, not_false_eq_true, if_true]
  rfl

/-- Witness for C3: two time probes without a time field, one after the other; the first
decode fails and leaves the second frame (16 bytes) on the stream. -/
theorem empty_payload_rejected_witness :
    demoProto.Marshal (Message.time ⟨none⟩) = some [] ∧
    ∃ bytes, (ToPacket (Message.time ⟨none⟩)).Bytes demoProto = some bytes ∧
      FromConnection demoProto ⟨bytes ++ (PutUint64 0x20 ++ PutUint64 0)⟩ =
        (Except.error (DecodeError.lengthMismatch 0
          ((PutUint64 0x20 ++ PutUint64 0).length : Int)), ⟨PutUint64 0x20 ++ PutUint64 0⟩) :=
  ⟨rfl, empty_payload_rejected demoProto (Message.time ⟨none⟩) (PutUint64 0x20 ++ PutUint64 0)
    rfl (by decide)⟩

/-- With fewer than 16 bytes buffered, `FromConnection` fails and consumes nothing. -/
theorem short_header_untouched (P : Proto) (c : Conn) (h : c.inbound.length < 16) :
    FromConnection P c = (Except.error DecodeError.readingType, c) := by
  have hp : c.Peek 16 = none := by
    unfold Conn.Peek
    rw [if_pos (by omega)]
  unfold FromConnection
  simp only [hp]

/-- Round trip with exact consumption, where it holds: if `Unmarshal` inverts `Marshal` on
`m` and either the payload is non-empty or nothing follows the frame, `FromConnection`
returns `m` and leaves exactly `rest`. -/
theorem roundtrip (P : Proto) (m : Message) (payload rest : List Byte)
    (hm : P.Marshal m = some payload) (hinv : P.Inverts m) (hlen : payload.length < 2 ^ 63)
    (hne : payload ≠ [] ∨ rest = []) :
    ∃ bytes, (ToPacket m).Bytes P = some bytes ∧
      FromConnection P ⟨bytes ++ rest⟩ = (Except.ok m, ⟨rest⟩) := by
  have ht : tagOf m < 2 ^ 63 := by cases m <;> simp [tagOf]
  have hb := Bytes_eq P m payload hm
  rw [toUint64_natCast (by omega)] at hb
  refine ⟨_, hb, ?_⟩
  have hp : Conn.Peek ⟨payload ++ rest⟩ (payload.length : Int) = some payload := by
    unfold Conn.Peek
    rw [if_neg (by simp)]
    by_cases h0 : payload = []
    · have hr : rest = [] := by tauto
      subst h0; subst hr
      simp
    · have : 0 < payload.length := List.length_pos.2 h0
      rw [if_neg (by omega)]
      simp
  have hr : Conn.Read ⟨payload ++ rest⟩ payload.length = (payload, true, ⟨rest⟩) := by
    unfold Conn.Read
    simp
    tauto
  have hu := hinv payload hm
  unfold FromConnection
  rw [List.append_assoc]
  simp only [Peek_header, Discard_header, header_type _ _ ht, header_length _ _ hlen]
  rw [if_pos (tagOf_known m)]
  simp only [hp, Int.toNat_ofNat, hr, ne_eq, not_true_eq_false, if_false]
  cases m with
  | audio a =>
    simp only at hu
    simp [unmarshalInto, tagOf, AudioType, hu]
  | time t =>
    simp only at hu
    simp [unmarshalInto, tagOf, AudioType, TimeType, hu]
  | latency l =>
    simp only at hu
    simp [unmarshalInto, tagOf, AudioType, TimeType, LatencyType, hu]

/-- Frame boundary, where it holds: two encoded messages one after the other, the first
with a non-empty payload, are decoded in order by two calls, leaving no byte. -/
theorem decode_two (P : Proto) (m₁ m₂ : Message) (p₁ p₂ : List Byte)
    (h₁ : P.Marshal m₁ = some p₁) (h₂ : P.Marshal m₂ = some p₂)
    (i₁ : P.Inverts m₁) (i₂ : P.Inverts m₂)
    (l₁ : p₁.length < 2 ^ 63) (l₂ : p₂.length < 2 ^ 63) (hne : p₁ ≠ []) :
    ∃ b₁ b₂, (ToPacket m₁).Bytes P = some b₁ ∧ (ToPacket m₂).Bytes P = some b₂ ∧
      FromConnection P ⟨b₁ ++ b₂⟩ = (Except.ok m₁, ⟨b₂⟩) ∧
      FromConnection P ⟨b₂⟩ = (Except.ok m₂, ⟨[]⟩) := by
  obtain ⟨b₂, hb₂, hd₂⟩ := roundtrip P m₂ p₂ [] h₂ i₂ l₂ (Or.inr rfl)
  obtain ⟨b₁, hb₁, hd₁⟩ := roundtrip P m₁ p₁ b₂ h₁ i₁ l₁ (Or.inl hne)
  rw [List.append_nil] at hd₂
  exact ⟨b₁, b₂, hb₁, hb₂, hd₁, hd₂⟩

theorem unmarshalInto_error (P : Proto) (ty : Int) (b : List Byte) (e : DecodeError)
    (h : unmarshalInto P ty b = Except.error e) : e = DecodeError.unmarshalling := by
  unfold unmarshalInto at h
  split_ifs at h <;> split at h <;> simp_all

/-- C5, what the code does on a failed decode: when fewer than 16 bytes are buffered or the
tag is unknown, the connection is untouched; when the body does not deserialize, exactly
the frame (16 header bytes and the `length` body bytes) has been consumed; the read error
of line 71 never occurs. (The two errors for a body that is not fully buffered are left
open here.) -/
theorem failed_decode_consumption (P : Proto) (c c' : Conn) (e : DecodeError)
    (h : FromConnection P c = (Except.error e, c')) :
    (e = DecodeError.readingType → c' = c ∧ c.inbound.length < 16) ∧
    (∀ t, e = DecodeError.unsupportedType t → c' = c ∧ 16 ≤ c.inbound.length) ∧
    (e = DecodeError.unmarshalling →
      16 + (toInt64 (Uint64 ((c.inbound.drop 8).take 8))).toNat ≤ c.inbound.length ∧
      c'.inbound = c.inbound.drop (16 + (toInt64 (Uint64 ((c.inbound.drop 8).take 8))).toNat)) ∧
    e ≠ DecodeError.readError := by
  by_cases h16 : c.inbound.length < 16
  · rw [short_header_untouched P c h16] at h
    simp only [Prod.mk.injEq, Except.error.injEq] at h
    obtain ⟨rfl, rfl⟩ := h
    simp [h16]
  · have hpeek : c.Peek 16 = some (c.inbound.take 16) := by
      unfold Conn.Peek
      rw [if_neg (by omega), if_neg (by omega)]
      rfl
    have hdisc : (c.Discard 16).2 = ⟨c.inbound.drop 16⟩ := by
      unfold Conn.Discard
      rw [if_neg (by omega)]
      rfl
    have hlenb : ((c.inbound.take 16).drop 8).take 8 = (c.inbound.drop 8).take 8 := by
      rw [List.drop_take, List.take_take]; rfl
    unfold FromConnection at h
    simp only [hpeek, hdisc, hlenb] at h
    generalize toInt64 (Uint64 ((c.inbound.drop 8).take 8)) = n at h ⊢
    generalize toInt64 (Uint64 ((c.inbound.take 16).take 8)) = ty at h
    have hbl : (c.inbound.drop 16).length = c.inbound.length - 16 := List.length_drop _ _
    by_cases hty : ty = AudioType ∨ ty = TimeType ∨ ty = LatencyType
    · rw [if_pos hty] at h
      by_cases hgt : n > ((c.inbound.drop 16).length : Int)
      · have hp : Conn.Peek ⟨c.inbound.drop 16⟩ n = none := by
          unfold Conn.Peek; rw [if_pos hgt]
        simp only [hp, Prod.mk.injEq, Except.error.injEq] at h
        obtain ⟨rfl, -⟩ := h
        simp
      · have hp : Conn.Peek ⟨c.inbound.drop 16⟩ n =
            some (if n ≤ 0 then c.inbound.drop 16 else (c.inbound.drop 16).take n.toNat) := by
          unfold Conn.Peek; rw [if_neg hgt]; split_ifs <;> rfl
        simp only [hp] at h
        by_cases hlen : ((if n ≤ 0 then c.inbound.drop 16
            else (c.inbound.drop 16).take n.toNat).length : Int) = n
        · have hn0 : 0 ≤ n := by rw [← hlen]; exact Int.natCast_nonneg _
          have hrl : ((c.inbound.drop 16).take n.toNat).length = n.toNat := by
            rw [List.length_take]; omega
          have hflag : (Conn.Read ⟨c.inbound.drop 16⟩ n.toNat).2.1 = true := by
            simp only [Conn.Read, hrl]
            by_cases hz : n.toNat = 0 <;> simp [hz]
          have hrd : ((Conn.Read ⟨c.inbound.drop 16⟩ n.toNat).1.length : Int) = n := by
            simp only [Conn.Read, hrl]; omega
          simp only [ne_eq, hlen, not_true_eq_false, if_false, hflag, hrd] at h
          simp only [Bool.true_eq_false, if_false, Prod.mk.injEq] at h
          obtain ⟨hu, hc⟩ := h
          have he := unmarshalInto_error P ty _ e hu
          subst he
          refine ⟨by simp, by simp, fun _ => ⟨by omega, ?_⟩, by simp⟩
          rw [← hc]
          simp only [Conn.Read, List.drop_drop]
        · simp only [ne_eq, hlen, not_false_eq_true, if_true, Prod.mk.injEq,
            Except.error.injEq] at h
          obtain ⟨rfl, -⟩ := h
          simp
    · rw [if_neg hty] at h
      simp only [Prod.mk.injEq, Except.error.injEq] at h
      obtain ⟨rfl, rfl⟩ := h
      simp
      omega

/-- Witness for C5: a Time header announcing 3 payload bytes, followed by 3 bytes that do
not deserialize and one more byte; the frame is consumed and the last byte is left. -/
theorem failed_decode_consumption_witness :
    FromConnection demoProto ⟨PutUint64 0x20 ++ PutUint64 3 ++ [1, 2, 3, 9]⟩ =
      (Except.error DecodeError.unmarshalling, ⟨[9]⟩) ∧
    (⟨[9]⟩ : Conn).inbound =
      (PutUint64 0x20 ++ PutUint64 3 ++ [1, 2, 3, 9]).drop
        (16 + (toInt64 (Uint64
          (((PutUint64 0x20 ++ PutUint64 3 ++ [1, 2, 3, 9]).drop 8).take 8))).toNat) :=
  ⟨rfl,
   ((failed_decode_consumption demoProto ⟨PutUint64 0x20 ++ PutUint64 3 ++ [1, 2, 3, 9]⟩
      ⟨[9]⟩ DecodeError.unmarshalling (by rfl)).2.2.1 rfl).2⟩

/-- Counterexample for C5 as stated: two streams on which `FromConnection` returns an error
and the unread content differs from the content before the call. With a Time header
announcing 3 bytes and a body that does not deserialize, header and body are gone; with an
Audio header announcing 5 bytes and only 3 buffered, the header is gone. -/
theorem failed_decode_consumes :
    (FromConnection demoProto ⟨PutUint64 0x20 ++ PutUint64 3 ++ [1, 2, 3, 9]⟩ =
        (Except.error DecodeError.unmarshalling, ⟨[9]⟩) ∧
      (⟨[9]⟩ : Conn) ≠ ⟨PutUint64 0x20 ++ PutUint64 3 ++ [1, 2, 3, 9]⟩) ∧
    (FromConnection demoProto ⟨PutUint64 0x10 ++ PutUint64 5 ++ [1, 2, 3]⟩ =
        (Except.error DecodeError.readingMessage, ⟨[1, 2, 3]⟩) ∧
      (⟨[1, 2, 3]⟩ : Conn) ≠ ⟨PutUint64 0x10 ++ PutUint64 5 ++ [1, 2, 3]⟩) :=
  ⟨⟨rfl, by decide⟩, ⟨rfl, by decide⟩⟩

end messages

/-! ## Theorems: the traffic handlers and the clock -/

namespace client

open messages player

/-- C7 (the code at the failing inputs): the handlers panic on well-framed remote input.
A Time message without its time field panics `Server.OnTraffic`; a Latency or Audio
message without its time field panics `Client.OnTraffic`; an Audio frame that carries a
left value and no right value, and is not discarded as late, panics `Player.Enqueue`. -/
theorem remote_input_panics (P : Proto) (c rest : Conn) (now now₂ : time.Time) (w : Bool)
    (cl : Client) (wall : Wall) (hsr : cl.player.SampleRate ≠ 0) :
    (FromConnection P c = (Except.ok (Message.time ⟨none⟩), rest) →
      server.OnTraffic P c now now₂ w = Outcome.panics) ∧
    (∀ l, FromConnection P c = (Except.ok (Message.latency ⟨l, none⟩), rest) →
      OnTraffic P cl c now = Outcome.panics) ∧
    (∀ left right, FromConnection P c = (Except.ok (Message.audio ⟨left, right, none⟩), rest) →
      OnTraffic P cl c now = Outcome.panics) ∧
    (∀ x left t tick,
      cl.player.Enqueue ⟨x :: left, [], t⟩ wall tick = Outcome.panics) ∧
    (∀ x left t h,
      OnTraffic P cl c now = Outcome.ok h → h.spawned = some ⟨x :: left, [], t⟩ →
      handleTraffic P cl c now wall = Outcome.panics) := by
  refine ⟨?_, ?_, ?_, ?_, ?_⟩
  · intro h
    unfold server.OnTraffic
    rw [h]
    rfl
  · intro l h
    unfold OnTraffic
    rw [h]
    rfl
  · intro left right h
    unfold OnTraffic
    rw [h]
    simp only [Player.SampleDuration, beep.SampleRate.D, if_neg hsr]
    rfl
  · intro x left t tick
    rfl
  · intro x left t h ho hs
    unfold handleTraffic
    rw [ho]
    simp only [Outcome.bind, hs]
    rfl

/-- Witness for C7: with a decoder that yields a time probe without time field, a latency
reply without time field, and an Audio frame with one left and no right value, a single
well-framed 16-byte frame panics the server handler, the client handler and the client
ingestion task. -/
theorem remote_input_panics_witness :
    server.OnTraffic bareProto ⟨PutUint64 0x20 ++ PutUint64 0⟩ ⟨0⟩ ⟨0⟩ true = Outcome.panics ∧
    OnTraffic bareProto demoClient ⟨PutUint64 0x30 ++ PutUint64 0⟩ ⟨0⟩ = Outcome.panics ∧
    handleTraffic bareProto demoClient ⟨PutUint64 0x10 ++ PutUint64 0⟩ ⟨0⟩ (fun _ => ⟨0⟩) =
      Outcome.panics :=
  ⟨(remote_input_panics bareProto ⟨PutUint64 0x20 ++ PutUint64 0⟩ ⟨[]⟩ ⟨0⟩ ⟨0⟩ true demoClient
      (fun _ => ⟨0⟩) (by decide)).1 rfl,
   (remote_input_panics bareProto ⟨PutUint64 0x30 ++ PutUint64 0⟩ ⟨[]⟩ ⟨0⟩ ⟨0⟩ true demoClient
      (fun _ => ⟨0⟩) (by decide)).2.1 0 rfl,
   (remote_input_panics bareProto ⟨PutUint64 0x10 ++ PutUint64 0⟩ ⟨[]⟩ ⟨0⟩ ⟨0⟩ true demoClient
      (fun _ => ⟨0⟩) (by decide)).2.2.2.2 1 [] (some ⟨0, 0⟩)
      { action := gnet.Action.None, client := demoClient, connection := ⟨[]⟩,
        spawned := some ⟨[1], [], some ⟨0, 0⟩⟩ } rfl rfl⟩

theorem unix_roundtrip (t : time.Time) : timex.ToTime (some (timex.ToTimestamp t)) = Outcome.ok t := by
  cases t with
  | mk n =>
    simp only [timex.ToTime, timex.ToTimestamp, time.Unix, time.Time.Unix, time.Time.Nanosecond]
    congr 2
    omega

/-- One exchange over a symmetric path sets the stored latency to the true latency. -/
theorem exchange_exact (θ Lstar : Int) (c : Clock) (t : Int)
    (h0 : 0 ≤ Lstar) (h1 : Lstar < 2 ^ 62) (h2 : -(2 ^ 62) < θ) (h3 : θ < 2 ^ 62) :
    exchange θ Lstar c t = Outcome.ok { c with latency := Lstar } := by
  unfold exchange server.latencyReply timeProbe Clock.UpdateLatency
  simp only [unix_roundtrip, Outcome.bind]
  have e1 : time.Time.Sub ⟨t + Lstar + θ⟩ ⟨t⟩ = Lstar + θ := by
    simp only [time.Time.Sub, time.clamp64, time.minInt64, time.maxInt64]
    split_ifs <;> omega
  have e2 : time.Time.Sub ⟨t + 2 * Lstar⟩ ⟨t + Lstar + θ⟩ = Lstar - θ := by
    simp only [time.Time.Sub, time.clamp64, time.minInt64, time.maxInt64]
    split_ifs <;> omega
  have e3 : time.wrap64 (Lstar - θ + (Lstar + θ)) = 2 * Lstar := by
    unfold time.wrap64; omega
  have e4 : Int.tdiv (2 * Lstar) 2 = Lstar := by
    rw [Int.tdiv_eq_ediv (by omega) (by omega)]; omega
  simp only [e1, e2, time.Duration.Nanoseconds, e3, e4]

/-- C8: over a path with the same constant true one-way latency `Lstar` in both directions
(the server replying at its receive instant, its clock `θ` ahead of the client clock),
every exchange returns, and after any positive number of replies (so after at most 3) the
stored latency equals `Lstar`, hence is within 1 ms of it, whatever the initial latency. -/
theorem latency_converges (θ Lstar : Int) (c : Clock) (ts : List Int)
    (h0 : 0 ≤ Lstar) (h1 : Lstar < 2 ^ 62) (h2 : -(2 ^ 62) < θ) (h3 : θ < 2 ^ 62)
    (hn : 1 ≤ ts.length) :
    ∃ c', exchanges θ Lstar c ts = Outcome.ok c' ∧ c'.latency = Lstar ∧
      |c'.GetLatency - Lstar| ≤ time.Millisecond := by
  refine ⟨{ c with latency := Lstar }, ?_, rfl, by simp [Clock.GetLatency, time.Millisecond]⟩
  induction ts using List.reverseRecOn with
  | nil => simp at hn
  | append_singleton ts t ih =>
    unfold exchanges at ih ⊢
    rw [List.foldl_append]
    simp only [List.foldl_cons, List.foldl_nil]
    cases ts with
    | nil => simp only [List.foldl_nil, Outcome.bind]; exact exchange_exact θ Lstar c t h0 h1 h2 h3
    | cons a as =>
      rw [ih (by simp)]
      simp only [Outcome.bind]
      exact exchange_exact θ Lstar _ t h0 h1 h2 h3

/-- Witness for C8: true latency 20 ms, server clock 3 s ahead, initial latency 5 ms, three
probes 100 ms apart. -/
theorem latency_converges_witness :
    ∃ c', exchanges 3000000000 20000000 (NewClock 5000000)
        [1700000000000000000, 1700000000100000000, 1700000000200000000] = Outcome.ok c' ∧
      c'.latency = 20000000 ∧ |c'.GetLatency - 20000000| ≤ time.Millisecond :=
  latency_converges 3000000000 20000000 (NewClock 5000000)
    [1700000000000000000, 1700000000100000000, 1700000000200000000]
    (by decide) (by decide) (by decide) (by decide) (by decide)

end client

/-! ## Theorems: the sink, `Player.Stream` -/

namespace circularbuffer

variable {α : Type}

/-- `Peek` on a queue holding `x :: l` returns `x`. -/
theorem Holds.peek {q : Queue α} {C : Nat} {x : α} {l : List α} (h : Holds q C (x :: l)) :
    q.Peek = Outcome.ok (some x) := by
  have he : q.Empty = false := by rw [h.empty_iff]; simp
  have h0 := h.item 0 (by simp)
  have hs0 : slot C q.readerPosition 0 = q.readerPosition := by
    unfold slot; simp [h.rd]
  rw [hs0] at h0
  simp only [List.getElem?_cons_zero] at h0
  unfold Queue.Peek
  rw [if_neg (by simp [he]), h0]

/-- `Peek` on an empty queue waits. -/
theorem Holds.peek_blocks {q : Queue α} {C : Nat} (h : Holds q C []) :
    q.Peek = Outcome.blocks := by
  have he : q.Empty = true := by rw [h.empty_iff]; simp
  simp [Queue.Peek, he]

end circularbuffer

namespace player

open circularbuffer

/-- For a latency inside the `int64` range (the least value apart, whose negation wraps),
the clock of the code, `Clock.Now`, is the wall clock minus the latency. -/
theorem nowAt_Now (p : Player) (wall : Wall) (n : Nat)
    (hL : time.minInt64 < p.clock.latency ∧ p.clock.latency ≤ time.maxInt64) :
    p.clock.Now (wall n) = p.nowAt wall n := by
  obtain ⟨h1, h2⟩ := hL
  simp only [time.minInt64, time.maxInt64] at h1 h2
  simp only [Clock.Now, Clock.GetLatency, time.Time.Add, Player.nowAt, time.wrap64]
  congr 1
  omega

theorem staleCount_le (p : Player) (wall : Wall) (n : Nat) (l : List audio.Sample) :
    staleCount p wall n l ≤ l.length := by
  induction l generalizing n with
  | nil => simp [staleCount]
  | cons s l ih =>
    unfold staleCount
    split
    · have := ih (n + 1); simp; omega
    · simp

/-- Every sample counted by `staleCount` is stale when it is examined. -/
theorem staleCount_stale (p : Player) (wall : Wall) (n : Nat) (l : List audio.Sample)
    (j : Nat) (s : audio.Sample) (hj : j < staleCount p wall n l) (hs : l[j]? = some s) :
    (p.nowAt wall (n + j)).Sub s.Time ≥ p.delayThreshold := by
  induction l generalizing n j with
  | nil => simp at hs
  | cons x l ih =>
    unfold staleCount at hj
    split at hj
    · cases j with
      | zero =>
        simp at hs
        subst hs
        simpa using ‹_›
      | succ j =>
        simp at hs
        have := ih (n + 1) j (by omega) hs
        rwa [show n + 1 + j = n + (j + 1) by omega] at this
    · omega

/-- The sample after the ones counted by `staleCount` is fresh when it is examined. -/
theorem staleCount_fresh (p : Player) (wall : Wall) (n : Nat) (l : List audio.Sample)
    (s : audio.Sample) (hs : l[staleCount p wall n l]? = some s) :
    (p.nowAt wall (n + staleCount p wall n l)).Sub s.Time < p.delayThreshold := by
  induction l generalizing n with
  | nil => simp at hs
  | cons x l ih =>
    unfold staleCount at hs ⊢
    split
    · rename_i hx
      rw [if_pos hx] at hs
      simp at hs
      have := ih (n + 1) hs
      rwa [show n + 1 + staleCount p wall (n + 1) l = n + (staleCount p wall (n + 1) l + 1)
        by omega] at this
    · rename_i hx
      rw [if_neg hx] at hs
      simp at hs
      subst hs
      simpa using hx

/-- The drop-stale loop on a ring holding `l` whose head `st.as` was read at clock read
`n`: with fuel beyond the stale count it returns, having removed exactly the samples
counted by `staleCount`. -/
theorem dropLoop_spec (p : Player) (wall : Wall) (C : Nat) (l : List audio.Sample)
    (hL : time.minInt64 < p.clock.latency ∧ p.clock.latency ≤ time.maxInt64) :
    ∀ (n fuel : Nat) (st : DropState) (fresh : audio.Sample),
      Holds st.streamBuffer C l → l.head? = some st.as →
      st.now = p.nowAt wall n → st.tick = n + 1 →
      l[staleCount p wall n l]? = some fresh → staleCount p wall n l < fuel →
      ∃ q, Player.dropLoop p wall fuel st = some (Outcome.ok
          { streamBuffer := q, tick := n + staleCount p wall n l + 1,
            now := p.nowAt wall (n + staleCount p wall n l), as := fresh,
            droppedSamples := st.droppedSamples + staleCount p wall n l }) ∧
        Holds q C (l.drop (staleCount p wall n l)) := by
  induction l with
  | nil => intro n fuel st fresh _ hh; simp at hh
  | cons x l ih =>
    intro n fuel st fresh hq hh hnow htick hfresh hfuel
    simp only [List.head?_cons, Option.some.injEq] at hh
    obtain ⟨fuel, rfl⟩ : ∃ f, fuel = f + 1 := ⟨fuel - 1, by omega⟩
    unfold staleCount at hfresh hfuel ⊢
    unfold Player.dropLoop
    by_cases hx : (p.nowAt wall n).Sub x.Time ≥ p.delayThreshold
    · rw [if_pos hx] at hfresh hfuel
      simp only [if_pos hx]
      rw [if_pos (by rw [hnow, ← hh]; exact hx)]
      obtain ⟨q', hd, hq'⟩ := hq.dequeue
      simp only [List.getElem?_cons_succ] at hfresh
      cases l with
      | nil => simp at hfresh
      | cons y l' =>
        have hpk : peekSample q' = Outcome.ok y := by
          unfold peekSample
          rw [hq'.peek]
          rfl
        simp only [hd, hpk]
        obtain ⟨q'', hl, hq''⟩ := ih (n + 1) fuel
          { streamBuffer := q', tick := st.tick + 1, now := p.clock.Now (wall st.tick), as := y,
            droppedSamples := st.droppedSamples + 1 } fresh hq' rfl
          (by
            show p.clock.Now (wall st.tick) = _
            rw [htick]
            exact nowAt_Now p wall (n + 1) hL)
          (by simp [htick]) hfresh (by omega)
        refine ⟨q'', ?_, ?_⟩
        · rw [hl]
          simp only [Option.some.injEq, Outcome.ok.injEq, DropState.mk.injEq, true_and]
          refine ⟨by omega, ?_, ?_⟩
          · rw [show n + 1 + staleCount p wall (n + 1) (y :: l')
              = n + (staleCount p wall (n + 1) (y :: l') + 1) by omega]
          · push_cast; ring
        · simpa using hq''
    · rw [if_neg hx] at hfresh
      simp only [if_neg hx]
      rw [if_neg (by rw [hnow, ← hh]; exact hx)]
      simp only [List.getElem?_cons_zero, Option.some.injEq] at hfresh
      refine ⟨st.streamBuffer, ?_, by simpa using hq⟩
      cases st
      simp_all

theorem take_succ_set {β : Type} (l : List β) (i : Nat) (v : β) (h : i < l.length) :
    (l.set i v).take (i + 1) = l.take i ++ [v] := by
  rw [List.set_eq_take_cons_drop v h, List.take_append_eq_append_take]
  simp only [List.take_take, List.length_take]
  have h1 : i + 1 - min i l.length = 1 := by omega
  have h2 : min (i + 1) i = i := by omega
  rw [h1, h2]
  simp

theorem drop_succ_set {β : Type} (l : List β) (i n : Nat) (v : β) (h : i < l.length) :
    (l.set i v).drop (i + 1 + n) = l.drop (i + 1 + n) := by
  rw [List.set_eq_take_cons_drop v h, List.drop_append_eq_append_drop]
  simp only [List.length_take]
  have h1 : i + 1 + n - min i l.length = n + 1 := by omega
  rw [h1]
  simp only [List.drop_succ_cons, List.drop_drop]
  rw [List.drop_eq_nil_of_le (by simp; omega)]
  simp only [List.nil_append]

/-- The drain loop on a ring holding `xs ++ rest` writes the data of `xs`, in order, into
the slots from `i` on and leaves `rest` in the ring. -/
theorem drainLoop_spec (C : Nat) (xs : List audio.Sample) :
    ∀ (rest : List audio.Sample) (i : Nat) (q : Queue audio.Sample)
      (samples : List (messages.Float64 × messages.Float64)),
      Holds q C (xs ++ rest) → i + xs.length ≤ samples.length →
      ∃ q', drainLoop xs.length i q samples = Outcome.ok
          (q', samples.take i ++ xs.map (fun s => s.Data) ++ samples.drop (i + xs.length)) ∧
        Holds q' C rest := by
  induction xs with
  | nil =>
    intro rest i q samples hq _
    exact ⟨q, by simp [drainLoop], by simpa using hq⟩
  | cons x xs ih =>
    intro rest i q samples hq hlen
    simp only [List.length_cons] at hlen
    obtain ⟨q', hd, hq'⟩ := Holds.dequeue (by simpa using hq : Holds q C (x :: (xs ++ rest)))
    obtain ⟨q'', hl, hq''⟩ := ih rest (i + 1) q' (samples.set i x.Data) hq'
      (by simp; omega)
    refine ⟨q'', ?_, hq''⟩
    simp only [List.length_cons, drainLoop, hd]
    rw [if_pos (by omega), hl]
    rw [take_succ_set samples i x.Data (by omega), drop_succ_set samples i xs.length x.Data
      (by omega)]
    simp only [List.map_cons, List.append_assoc, List.singleton_append, Outcome.ok.injEq,
      Prod.mk.injEq, true_and]
    rw [show i + 1 + xs.length = i + (xs.length + 1) by omega]

/-- What `Player.Stream` does on a ring holding `l` when some sample is fresh at its
examination, the fill count is not negative and the ring holds enough samples for the
slots left: the stale samples are removed, the first `f` slots are silence, the other slots
carry the next ring samples in order. -/
theorem Stream_spec (p : Player) (wall : Wall) (C : Nat) (l : List audio.Sample)
    (tick fuel : Nat) (out : List (messages.Float64 × messages.Float64))
    (hL : time.minInt64 < p.clock.latency ∧ p.clock.latency ≤ time.maxInt64)
    (hq : Holds p.streamBuffer C l)
    (hk : staleCount p wall tick l < l.length)
    (hfuel : staleCount p wall tick l < fuel)
    (hf : 0 ≤ Player.fillCount p (out.length : Int) (headDiff p wall tick l))
    (hen : out.length - (Player.fillCount p (out.length : Int) (headDiff p wall tick l)).toNat
      ≤ l.length - staleCount p wall tick l) :
    ∃ q, Player.Stream p wall tick fuel out = some (Outcome.ok
        { samples :=
            List.replicate
              (Player.fillCount p (out.length : Int) (headDiff p wall tick l)).toNat silence ++
            ((l.drop (staleCount p wall tick l)).take
              (out.length -
                (Player.fillCount p (out.length : Int) (headDiff p wall tick l)).toNat)).map
              (fun s => s.Data)
          player := { p with streamBuffer := q }
          tick := tick + staleCount p wall tick l + 1
          fillSamples := Player.fillCount p (out.length : Int) (headDiff p wall tick l)
          droppedSamples := staleCount p wall tick l
          n := out.length
          ok := decide ((out.length : Int) > 0) }) ∧
      Holds q C (l.drop (staleCount p wall tick l + (out.length -
        (Player.fillCount p (out.length : Int) (headDiff p wall tick l)).toNat))) := by
  obtain ⟨fresh, hfresh⟩ : ∃ s, l[staleCount p wall tick l]? = some s :=
    ⟨l[staleCount p wall tick l], List.getElem?_eq_getElem hk⟩
  have hd : headDiff p wall tick l =
      fresh.Time.Sub (p.nowAt wall (tick + staleCount p wall tick l)) := by
    simp [headDiff, hfresh]
  set k := staleCount p wall tick l with hkdef
  set f := Player.fillCount p (out.length : Int) (headDiff p wall tick l) with hfdef
  have hfle : f ≤ (out.length : Int) := by
    rw [hfdef]; simp only [Player.fillCount]; split_ifs <;> omega
  cases l with
  | nil => simp at hk
  | cons x l' =>
    have hpk : peekSample p.streamBuffer = Outcome.ok x := by
      unfold peekSample; rw [hq.peek]; rfl
    obtain ⟨q₁, hl, hq₁⟩ := dropLoop_spec p wall C (x :: l') hL tick fuel
      { streamBuffer := p.streamBuffer, tick := tick + 1, now := p.clock.Now (wall tick),
        as := x, droppedSamples := 0 } fresh hq rfl (nowAt_Now p wall tick hL) rfl hfresh
      hfuel
    rw [← hkdef] at hl hq₁
    have hsplit : (x :: l').drop k =
        ((x :: l').drop k).take (out.length - f.toNat) ++
          ((x :: l').drop k).drop (out.length - f.toNat) := (List.take_append_drop _ _).symm
    rw [hsplit] at hq₁
    have htl : (((x :: l').drop k).take (out.length - f.toNat)).length =
        out.length - f.toNat := by
      rw [List.length_take, List.length_drop]; omega
    obtain ⟨q₂, hdr, hq₂⟩ := drainLoop_spec C _ _ f.toNat q₁
      (List.replicate f.toNat silence ++ out.drop f.toNat) hq₁
      (by rw [htl]; simp)
    rw [htl] at hdr
    refine ⟨q₂, ?_, by rw [← List.drop_drop]; exact hq₂⟩
    unfold Player.Stream
    simp only [hpk, hl, ← hd, ← hfdef]
    rw [if_neg (by omega)]
    have hcount : ((out.length : Int) - f).toNat = out.length - f.toNat := by omega
    simp only [hcount, hdr]
    have hdrop : List.drop (f.toNat + (out.length - f.toNat))
        (List.replicate f.toNat silence ++ List.drop f.toNat out) = [] := by
      apply List.drop_eq_nil_of_le
      simp
    have htake : List.take f.toNat (List.replicate f.toNat silence ++ List.drop f.toNat out) =
        List.replicate f.toNat silence := by
      rw [List.take_left' (by simp)]
    simp [hdrop, htake]

/-- Without `int64` overflow, `SampleRate.N` is the rounded-down quotient. -/
theorem N_eq_floor (sr : Int) (d : Int) (hd : 0 ≤ d) (hsr : 0 ≤ sr)
    (hov : d * sr < 2 ^ 63) : beep.SampleRate.N sr d = d * sr / 1000000000 := by
  have h0 : 0 ≤ d * sr := Int.mul_nonneg hd hsr
  unfold beep.SampleRate.N time.wrap64 time.Second
  generalize d * sr = x at h0 hov ⊢
  have hw : (x + 2 ^ 63) % 2 ^ 64 - 2 ^ 63 = x := by omega
  rw [hw, Int.tdiv_eq_ediv h0 (by norm_num)]

/-- The fill count of the code, without `int64` overflow and with a non-negative threshold
and rate: `min(K, floor(d * SR / 1 s))` when `d > delayThreshold`, else 0. -/
theorem fillCount_eq (p : Player) (K : Int) (d : Int)
    (hΔ : 0 ≤ p.delayThreshold) (hsr : 0 ≤ p.SampleRate) (hov : d * p.SampleRate < 2 ^ 63) :
    Player.fillCount p K d =
      if d > p.delayThreshold then min K (d * p.SampleRate / 1000000000) else 0 := by
  simp only [Player.fillCount]
  by_cases hd : d > p.delayThreshold
  · rw [if_pos hd, if_pos hd, N_eq_floor _ _ (by omega) hsr hov]
    split_ifs <;> omega
  · rw [if_neg hd, if_neg hd]

theorem fillCount_nonneg (p : Player) (K : Int) (d : Int) (hK : 0 ≤ K)
    (hΔ : 0 ≤ p.delayThreshold) (hsr : 0 ≤ p.SampleRate) (hov : d * p.SampleRate < 2 ^ 63) :
    0 ≤ Player.fillCount p K d := by
  rw [fillCount_eq p K d hΔ hsr hov]
  split_ifs with hd
  · have h0 : 0 ≤ d * p.SampleRate := Int.mul_nonneg (by omega) hsr
    have : 0 ≤ d * p.SampleRate / 1000000000 := Int.ediv_nonneg h0 (by norm_num)
    omega
  · exact le_refl _

/-- C9: with `T_now = wall_now() - L` the latency-adjusted clock (`L` the stored latency,
inside the `int64` range) and `Δ` the delay threshold: on a ring holding `l` in which some
sample is fresh when examined (the fill count not being negative and the ring holding
enough samples for the slots not filled with silence, so that the call returns), the
samples `Player.Stream` discards before writing any slot are the first `staleCount` samples
of `l`, each of age `T_now - time ≥ Δ` when examined; the next sample has age below `Δ`;
the slots after the silence carry the following samples of `l` in their order, and the
ring keeps the rest of `l`. -/
theorem drop_stale_prefix (p : Player) (wall : Wall) (C : Nat) (l : List audio.Sample)
    (tick fuel : Nat) (out : List (messages.Float64 × messages.Float64))
    (hL : time.minInt64 < p.clock.latency ∧ p.clock.latency ≤ time.maxInt64)
    (hq : Holds p.streamBuffer C l)
    (hk : staleCount p wall tick l < l.length)
    (hfuel : staleCount p wall tick l < fuel)
    (hf : 0 ≤ Player.fillCount p (out.length : Int) (headDiff p wall tick l))
    (hen : out.length - (Player.fillCount p (out.length : Int) (headDiff p wall tick l)).toNat
      ≤ l.length - staleCount p wall tick l) :
    ∃ r, Player.Stream p wall tick fuel out = some (Outcome.ok r) ∧
      r.droppedSamples = staleCount p wall tick l ∧
      (∀ j s, j < staleCount p wall tick l → l[j]? = some s →
        (⟨(wall (tick + j)).unixNano - p.clock.latency⟩ : time.Time).Sub s.Time
          ≥ p.delayThreshold) ∧
      (∀ s, l[staleCount p wall tick l]? = some s →
        (⟨(wall (tick + staleCount p wall tick l)).unixNano - p.clock.latency⟩ :
          time.Time).Sub s.Time < p.delayThreshold) ∧
      r.samples.drop r.fillSamples.toNat =
        ((l.drop (staleCount p wall tick l)).take (out.length - r.fillSamples.toNat)).map
          (fun s => s.Data) ∧
      Holds r.player.streamBuffer C
        (l.drop (staleCount p wall tick l + (out.length - r.fillSamples.toNat))) := by
  obtain ⟨q, hs, hq'⟩ := Stream_spec p wall C l tick fuel out hL hq hk hfuel hf hen
  refine ⟨_, hs, rfl, ?_, ?_, ?_, hq'⟩
  · intro j s hj hjs
    exact staleCount_stale p wall tick l j s hj hjs
  · intro s hs'
    exact staleCount_fresh p wall tick l s hs'
  · simp only
    rw [List.drop_left' (by simp)]

theorem latePlayer_holds :
    Holds latePlayer.streamBuffer 4
      [⟨(1, 2), ⟨980000000⟩⟩, ⟨(3, 4), ⟨980022675⟩⟩, ⟨(5, 6), ⟨1000000000⟩⟩] := by
  refine ⟨rfl, rfl, by decide, by decide, rfl, rfl, ?_⟩
  intro i hi
  simp only [List.length_cons, List.length_nil] at hi
  interval_cases i <;> rfl

/-- Witness for C9: latency 25 ms, wall clock 1.025 s (so `T_now` = 1 s), a ring with two
samples due 20 ms before `T_now` and one due at `T_now`, one output slot: the two late
samples are dropped and the third is written. Judged on the wall clock itself (latency 0)
all three samples would count as stale. -/
theorem drop_stale_prefix_witness :
    (∃ r, Player.Stream latePlayer wallAt1025 0 3 [(0, 0)] = some (Outcome.ok r) ∧
      r.droppedSamples = 2 ∧ r.samples = [(5, 6)]) ∧
    staleCount latePlayer wallAt1025 0
      [⟨(1, 2), ⟨980000000⟩⟩, ⟨(3, 4), ⟨980022675⟩⟩, ⟨(5, 6), ⟨1000000000⟩⟩] = 2 ∧
    staleCount { latePlayer with clock := NewClock 0 } wallAt1025 0
      [⟨(1, 2), ⟨980000000⟩⟩, ⟨(3, 4), ⟨980022675⟩⟩, ⟨(5, 6), ⟨1000000000⟩⟩] = 3 := by
  obtain ⟨r, h1, h2, -⟩ := drop_stale_prefix latePlayer wallAt1025 4
    [⟨(1, 2), ⟨980000000⟩⟩, ⟨(3, 4), ⟨980022675⟩⟩, ⟨(5, 6), ⟨1000000000⟩⟩] 0 3 [(0, 0)]
    (by decide) latePlayer_holds (by decide) (by decide) (by decide) (by decide)
  refine ⟨⟨r, h1, ?_, ?_⟩, by decide, by decide⟩
  · rw [h2]; decide
  · have e : Player.Stream latePlayer wallAt1025 0 3 [(0, 0)] =
        some (Outcome.ok ⟨[(5, 6)],
          { latePlayer with streamBuffer := ⟨[none, none, none, none], 4, 3, 3, false⟩ },
          3, 0, 2, 1, true⟩) := by decide
    rw [e] at h1
    simp only [Option.some.injEq, Outcome.ok.injEq] at h1
    rw [← h1]

/-- C10, what the code does: with `T_now = wall_now() - L` the latency-adjusted clock (`L`
the stored latency, inside the `int64` range) and `d = head.time - T_now` measured after
the drop-stale step, a non-negative threshold and rate and no `int64` overflow in `d * SR`,
`Player.Stream` fills exactly `min(K, floor(d * SR / 1 s))` leading slots with silence when
`d > delayThreshold` and none when `d <= delayThreshold`; the remaining `K - filled` slots
are taken from the ring, in order. -/
theorem fill_count_floor (p : Player) (wall : Wall) (C : Nat) (l : List audio.Sample)
    (tick fuel : Nat) (out : List (messages.Float64 × messages.Float64))
    (hL : time.minInt64 < p.clock.latency ∧ p.clock.latency ≤ time.maxInt64)
    (hq : Holds p.streamBuffer C l)
    (hk : staleCount p wall tick l < l.length)
    (hfuel : staleCount p wall tick l < fuel)
    (hΔ : 0 ≤ p.delayThreshold) (hsr : 0 ≤ p.SampleRate)
    (hov : headDiff p wall tick l * p.SampleRate < 2 ^ 63)
    (hen : out.length - (Player.fillCount p (out.length : Int) (headDiff p wall tick l)).toNat
      ≤ l.length - staleCount p wall tick l) :
    ∃ r, Player.Stream p wall tick fuel out = some (Outcome.ok r) ∧
      (∀ s, l[staleCount p wall tick l]? = some s →
        headDiff p wall tick l =
          s.Time.Sub ⟨(wall (tick + staleCount p wall tick l)).unixNano - p.clock.latency⟩) ∧
      (headDiff p wall tick l > p.delayThreshold →
        r.fillSamples =
          min (out.length : Int) (headDiff p wall tick l * p.SampleRate / 1000000000)) ∧
      (headDiff p wall tick l ≤ p.delayThreshold → r.fillSamples = 0) ∧
      0 ≤ r.fillSamples ∧ r.fillSamples ≤ (out.length : Int) ∧
      r.samples.length = out.length ∧
      r.samples.take r.fillSamples.toNat = List.replicate r.fillSamples.toNat silence ∧
      r.samples.drop r.fillSamples.toNat =
        ((l.drop (staleCount p wall tick l)).take (out.length - r.fillSamples.toNat)).map
          (fun s => s.Data) := by
  have he := fillCount_eq p (out.length : Int) (headDiff p wall tick l) hΔ hsr hov
  have hf := fillCount_nonneg p (out.length : Int) (headDiff p wall tick l) (by omega) hΔ hsr hov
  have hle : Player.fillCount p (out.length : Int) (headDiff p wall tick l) ≤ out.length := by
    rw [he]; split_ifs <;> omega
  obtain ⟨q, hs, -⟩ := Stream_spec p wall C l tick fuel out hL hq hk hfuel hf hen
  refine ⟨_, hs, ?_, ?_, ?_, hf, hle, ?_, ?_, ?_⟩
  · intro s hs'
    simp only [headDiff, hs']
    rfl
  · intro hd
    simp only [he, if_pos hd]
  · intro hd
    simp only [he, if_neg (not_lt.2 hd)]
  · simp only [List.length_append, List.length_replicate, List.length_map, List.length_take,
      List.length_drop]
    omega
  · simp only
    rw [List.take_left' (by simp)]
  · simp only
    rw [List.drop_left' (by simp)]

theorem earlyPlayer_holds :
    Holds earlyPlayer.streamBuffer 4 [⟨(7, 9), ⟨1010000001⟩⟩] := by
  refine ⟨rfl, rfl, by decide, by decide, rfl, rfl, ?_⟩
  intro i hi
  simp only [List.length_cons, List.length_nil] at hi
  interval_cases i
  rfl

set_option maxRecDepth 100000 in
/-- Witness for C10: latency 25 ms, wall clock 1.025 s (so `T_now` = 1 s), the head sample
due 10.000001 ms after `T_now`, 442 slots requested at 44100 Hz: 441 slots are filled with
silence. Judged on the wall clock itself (latency 0) the same sample would be 14.999999 ms
old and count as stale. -/
theorem fill_count_floor_witness :
    (∃ r, Player.Stream earlyPlayer wallAt1025 0 1 (List.replicate 442 (1, 1)) =
        some (Outcome.ok r) ∧ r.fillSamples = 441 ∧
        r.samples = List.replicate 441 silence ++ [(7, 9)]) ∧
    headDiff earlyPlayer wallAt1025 0 [⟨(7, 9), ⟨1010000001⟩⟩] = 10000001 ∧
    staleCount { earlyPlayer with clock := NewClock 0 } wallAt1025 0
      [⟨(7, 9), ⟨1010000001⟩⟩] = 1 := by
  obtain ⟨r, h1, -, h2, -⟩ := fill_count_floor earlyPlayer wallAt1025 4
    [⟨(7, 9), ⟨1010000001⟩⟩] 0 1 (List.replicate 442 (1, 1))
    (by decide) earlyPlayer_holds (by decide) (by decide) (by decide) (by decide) (by decide)
    (by decide)
  refine ⟨⟨r, h1, by rw [h2 (by decide)]; decide, ?_⟩, by decide, by decide⟩
  have e : Player.Stream earlyPlayer wallAt1025 0 1 (List.replicate 442 (1, 1)) =
      some (Outcome.ok
        ⟨List.replicate 441 silence ++ [(7, 9)],
         { earlyPlayer with streamBuffer := ⟨[none, none, none, none], 4, 1, 1, false⟩ },
         1, 441, 0, 442, true⟩) := by decide
  rw [e] at h1
  simp only [Option.some.injEq, Outcome.ok.injEq] at h1
  rw [← h1]

set_option maxRecDepth 100000 in
/-- Counterexample for C10 as stated: with latency 25 ms and wall clock 1.025 s (`T_now` =
1 s), the head sample due 10.000001 ms after `T_now` (`d > delayThreshold` = 10 ms),
44100 Hz and 442 requested slots, `Player.Stream` fills 441 slots with silence and writes
the ring sample into slot 441, whereas `min(K, ceil(d * SR))` is 442. -/
theorem fill_count_not_ceil :
    Player.Stream earlyPlayer wallAt1025 0 1 (List.replicate 442 (1, 1)) =
      some (Outcome.ok
        ⟨List.replicate 441 silence ++ [(7, 9)],
         { earlyPlayer with streamBuffer := ⟨[none, none, none, none], 4, 1, 1, false⟩ },
         1, 441, 0, 442, true⟩) ∧
    headDiff earlyPlayer wallAt1025 0 [⟨(7, 9), ⟨1010000001⟩⟩] = 10000001 ∧
    (10000001 : Int) > earlyPlayer.delayThreshold ∧
    specFillCount earlyPlayer.delayThreshold 442 44100 10000001 = 442 ∧
    (441 : Int) ≠ specFillCount earlyPlayer.delayThreshold 442 44100 10000001 := by
  decide

end player

/-! ## Theorems: pkg/circularbuffer, observers, `Clear`, `Peek`, nil entries -/

namespace circularbuffer

variable {α : Type}

/-- The queue `New C` returns. -/
theorem New_eq (C : Nat) (hC : 1 ≤ C) :
    New (α := α) C = Outcome.ok ⟨List.replicate C none, C, 0, 0, false⟩ := by
  unfold New
  rw [if_neg (by omega)]
  rfl

theorem New_wf (C : Nat) (hC : 1 ≤ C) :
    Wf (⟨List.replicate C none, C, 0, 0, false⟩ : Queue α) C :=
  ⟨rfl, by simp, by simpa using hC, by simpa using hC, by simp⟩

theorem Wf.clear {q : Queue α} {C : Nat} (h : Wf q C) : Wf q.Clear C := by
  have h1 := h.cap; have h2 := h.rd
  refine ⟨h1, by simp [Queue.Clear, h1], by simp [Queue.Clear]; omega,
    by simp [Queue.Clear]; omega, by simp [Queue.Clear]⟩

/-- `Clear` on a reachable queue gives the queue `New` makes. -/
theorem Wf.clear_eq {q : Queue α} {C : Nat} (h : Wf q C) :
    q.Clear = ⟨List.replicate C none, C, 0, 0, false⟩ := by
  simp [Queue.Clear, h.cap]

theorem Wf.size_bounds {q : Queue α} {C : Nat} (h : Wf q C) :
    0 ≤ q.Size ∧ q.Size ≤ (C : Int) := by
  have h1 := h.cap; have h2 := h.rd; have h3 := h.wr
  unfold Queue.Size
  split_ifs <;> constructor <;> omega

/-- On a reachable queue `Full()` says that `Size()` is the capacity. -/
theorem Wf.full_iff {q : Queue α} {C : Nat} (h : Wf q C) :
    q.Full = true ↔ q.Size = (C : Int) := by
  have h1 := h.cap; have h2 := h.rd; have h3 := h.wr; have h4 := h.full
  unfold Queue.Size Queue.Full
  constructor
  · intro hf
    have := h4 hf
    rw [if_neg (by omega), if_pos this]
    simp [Queue.Full, hf, h1]
  · intro hs
    split_ifs at hs with a b c
    · omega
    · exact c
    · omega
    · omega

theorem Wf.empty_size {q : Queue α} : q.Empty = true ↔ q.Size = 0 := by
  simp [Queue.Empty]

/-- `Enqueue` on a reachable queue never panics; when it returns, the queue is reachable,
the full flag says that the writer cursor is on the reader cursor, `Size()` went up by
one, and the reader cursor and every slot but the one written are as before. -/
theorem Wf.enqueue_wf {q : Queue α} {C : Nat} (h : Wf q C) (v : Option α) :
    q.Enqueue v ≠ Outcome.panics ∧
    (q.Enqueue v = Outcome.blocks ↔ q.Full = true) ∧
    ∀ q', q.Enqueue v = Outcome.ok q' →
      Wf q' C ∧ (q'.Full = true ↔ q'.writerPosition = q'.readerPosition) ∧
      q'.Size = q.Size + 1 ∧ q'.readerPosition = q.readerPosition ∧
      (q.isFull = false) ∧
      (∀ i, i ≠ q.writerPosition → q'.buffer[i]? = q.buffer[i]?) := by
  have h1 := h.cap; have h2 := h.rd; have h3 := h.wr; have h4 := h.full; have h5 := h.len
  unfold Queue.Enqueue Queue.Full
  by_cases hf : q.isFull = true
  · simp [hf]
  · have hf' : q.isFull = false := by simpa using hf
    rw [if_neg hf, if_pos (by omega)]
    refine ⟨by simp, by simp [hf'], ?_⟩
    intro q' hq'
    simp only [Outcome.ok.injEq] at hq'
    subst hq'
    refine ⟨⟨h1, by simp [h5], h2, ?_, ?_⟩, ?_, ?_, rfl, hf', ?_⟩
    · simp only [h1]; split_ifs <;> omega
    · simp only [hf']; intro hh; split_ifs at hh with a <;> simp_all
    · simp only [hf', Queue.Full]; split_ifs <;> simp_all
    · simp only [Queue.Size, Queue.Full, hf', h1]
      split_ifs <;> simp_all <;> omega
    · intro i hi
      simp only []
      rw [List.getElem?_set_ne (Ne.symm hi)]

/-- `Dequeue` on a reachable queue never panics; when it returns nil the queue is as
before; when it returns a stored value, the queue is reachable, the full flag is false and
`Size()` went down by one. -/
theorem Wf.dequeue_wf {q : Queue α} {C : Nat} (h : Wf q C) :
    q.Dequeue ≠ Outcome.panics ∧
    (q.Dequeue = Outcome.blocks ↔ q.Empty = true) ∧
    ∀ v q', q.Dequeue = Outcome.ok (v, q') →
      Wf q' C ∧ q.buffer[q.readerPosition]? = some v ∧
      (v = none → q' = q) ∧
      (∀ x, v = some x → q'.Full = false ∧ q'.Size = q.Size - 1) := by
  have h1 := h.cap; have h2 := h.rd; have h3 := h.wr; have h4 := h.full; have h5 := h.len
  unfold Queue.Dequeue
  by_cases he : q.Empty = true
  · simp [he]
  · have he' : q.Empty = false := by simpa using he
    rw [if_neg he]
    have hlt : q.readerPosition < q.buffer.length := by omega
    have hget : q.buffer[q.readerPosition]? = some (q.buffer[q.readerPosition]) :=
      List.getElem?_eq_getElem hlt
    have hsz : q.Size ≠ 0 := by simpa [Queue.Empty] using he'
    cases hv : q.buffer[q.readerPosition] with
    | none =>
      rw [hv] at hget
      simp only [hget]
      refine ⟨by simp, by simp [he'], ?_⟩
      intro v q' hq'
      simp only [Outcome.ok.injEq, Prod.mk.injEq] at hq'
      obtain ⟨rfl, rfl⟩ := hq'
      exact ⟨h, rfl, fun _ => rfl, fun x hx => by simp at hx⟩
    | some x =>
      rw [hv] at hget
      simp only [hget]
      refine ⟨by simp, by simp [he'], ?_⟩
      intro v q' hq'
      simp only [Outcome.ok.injEq, Prod.mk.injEq] at hq'
      obtain ⟨rfl, rfl⟩ := hq'
      refine ⟨⟨h1, by simp [h5], ?_, h3, by simp⟩, rfl, fun hn => by simp at hn, ?_⟩
      · simp only [h1]; split_ifs <;> omega
      · intro y _
        refine ⟨rfl, ?_⟩
        have hsz' := hsz
        simp only [Queue.Size, Queue.Full, h1] at hsz' ⊢
        by_cases hfl : q.isFull = true
        · have := h4 hfl
          simp only [hfl] at hsz' ⊢
          split_ifs at hsz' ⊢ <;> simp_all <;> omega
        · have hfl' : q.isFull = false := by simpa using hfl
          simp only [hfl'] at hsz' ⊢
          split_ifs at hsz' ⊢ <;> simp_all <;> omega

/-- `Peek` on a reachable queue never panics and returns the slot under the reader cursor. -/
theorem Wf.peek_wf {q : Queue α} {C : Nat} (h : Wf q C) :
    q.Peek ≠ Outcome.panics ∧ (q.Peek = Outcome.blocks ↔ q.Empty = true) ∧
    ∀ v, q.Peek = Outcome.ok v → q.buffer[q.readerPosition]? = some v := by
  have h2 := h.rd; have h5 := h.len
  have hget : q.buffer[q.readerPosition]? = some (q.buffer[q.readerPosition]) :=
    List.getElem?_eq_getElem (by omega)
  unfold Queue.Peek
  by_cases he : q.Empty = true
  · simp [he]
  · rw [if_neg he, hget]
    simp [he]

theorem runFrom_snoc (q : Queue α) (ops : List (Op α)) (o : Op α) :
    runFrom q (ops ++ [o]) = (runFrom q ops).bind (fun st => stepOp st o) := by
  simp [runFrom, List.foldl_append]

/-- A step from a reachable queue never panics and reaches a reachable queue. -/
theorem stepOp_wf {C : Nat} (st : Queue α × List (Option α)) (o : Op α) (h : Wf st.1 C) :
    stepOp st o ≠ Outcome.panics ∧ ∀ st', stepOp st o = Outcome.ok st' → Wf st'.1 C := by
  cases o with
  | enqueue v =>
    obtain ⟨e1, -, e3⟩ := h.enqueue_wf v
    cases he : st.1.Enqueue v with
    | panics => exact absurd he e1
    | blocks => simp [stepOp, he, Outcome.bind]
    | ok q' =>
      simp only [stepOp, he, Outcome.bind]
      refine ⟨by simp, ?_⟩
      intro st' hst'
      simp only [Outcome.ok.injEq] at hst'
      subst hst'
      exact (e3 q' he).1
  | dequeue =>
    obtain ⟨e1, -, e3⟩ := h.dequeue_wf
    cases he : st.1.Dequeue with
    | panics => exact absurd he e1
    | blocks => simp [stepOp, he, Outcome.bind]
    | ok r =>
      simp only [stepOp, he, Outcome.bind]
      refine ⟨by simp, ?_⟩
      intro st' hst'
      simp only [Outcome.ok.injEq] at hst'
      subst hst'
      exact (e3 r.1 r.2 he).1
  | peek =>
    obtain ⟨e1, -, -⟩ := h.peek_wf
    cases he : st.1.Peek with
    | panics => exact absurd he e1
    | blocks => simp [stepOp, he, Outcome.bind]
    | ok v =>
      simp only [stepOp, he, Outcome.bind]
      refine ⟨by simp, ?_⟩
      intro st' hst'
      simp only [Outcome.ok.injEq] at hst'
      subst hst'
      exact h
  | clear =>
    simp only [stepOp]
    refine ⟨by simp, ?_⟩
    intro st' hst'
    simp only [Outcome.ok.injEq] at hst'
    subst hst'
    exact h.clear

/-- Calls on a reachable queue never panic and reach reachable queues only. -/
theorem runFrom_wf {C : Nat} (q : Queue α) (h : Wf q C) (ops : List (Op α)) :
    runFrom q ops ≠ Outcome.panics ∧ ∀ st, runFrom q ops = Outcome.ok st → Wf st.1 C := by
  induction ops using List.reverseRecOn with
  | nil =>
    refine ⟨by simp [runFrom], ?_⟩
    intro st hst
    simp only [runFrom, List.foldl_nil, Outcome.ok.injEq] at hst
    subst hst
    exact h
  | append_singleton ops o ih =>
    rw [runFrom_snoc]
    obtain ⟨ih1, ih2⟩ := ih
    cases hr : runFrom q ops with
    | panics => exact absurd hr ih1
    | blocks => simp [Outcome.bind]
    | ok st =>
      simp only [Outcome.bind]
      exact stepOp_wf st o (ih2 st hr)

theorem runOps_eq (C : Nat) (hC : 1 ≤ C) (ops : List (Op α)) :
    runOps C ops = runFrom ⟨List.replicate C none, C, 0, 0, false⟩ ops := by
  unfold runOps
  rw [New_eq C hC]
  rfl

/-- C13: in every state reachable from `New C` (C ≥ 1) by `Enqueue` (of any value),
`Dequeue`, `Peek` and `Clear` calls that do not have to wait, no call panics, `Full()` is
true exactly when `Size() == C` and `Empty()` exactly when `Size() == 0`; after an
`Enqueue` the full flag is set exactly when the writer cursor is on the reader cursor;
after a `Dequeue` of a stored value the full flag is false; and for capacity 1 one
`Enqueue` of a value makes the queue full and the following `Dequeue` returns the value
and makes it empty and not full. -/
theorem observers_agree (C : Nat) (hC : 1 ≤ C) (ops : List (Op α)) :
    runOps C ops ≠ Outcome.panics ∧
    (∀ q outs, runOps C ops = Outcome.ok (q, outs) →
      (q.Full = true ↔ q.Size = (C : Int)) ∧ (q.Empty = true ↔ q.Size = 0) ∧
      (∀ v q', q.Enqueue v = Outcome.ok q' →
        (q'.Full = true ↔ q'.writerPosition = q'.readerPosition)) ∧
      (∀ x q', q.Dequeue = Outcome.ok (some x, q') → q'.Full = false)) ∧
    (∀ v : α, ∃ q₀ q₁ q₂, New 1 = Outcome.ok q₀ ∧ q₀.Enqueue (some v) = Outcome.ok q₁ ∧
      q₁.Full = true ∧ q₁.Size = 1 ∧ q₁.Dequeue = Outcome.ok (some v, q₂) ∧
      q₂.Empty = true ∧ q₂.Full = false) := by
  rw [runOps_eq C hC]
  obtain ⟨r1, r2⟩ := runFrom_wf _ (New_wf (α := α) C hC) ops
  refine ⟨r1, ?_, ?_⟩
  · intro q outs h
    have hw : Wf q C := r2 _ h
    refine ⟨hw.full_iff, Wf.empty_size, ?_, ?_⟩
    · intro v q' hq'
      exact (((hw.enqueue_wf v).2.2 q' hq').2).1
    · intro x q' hq'
      exact (((hw.dequeue_wf).2.2 (some x) q' hq').2.2.2 x rfl).1
  · intro v
    exact ⟨⟨[none], 1, 0, 0, false⟩, ⟨[some v], 1, 0, 0, true⟩, ⟨[none], 1, 0, 0, false⟩,
      rfl, rfl, rfl, rfl, rfl, rfl, rfl⟩

/-- Witness for C13: capacity 2; a nil value and a value are enqueued, the queue is cleared
and a value is enqueued. -/
theorem observers_agree_witness :
    runOps 2 [Op.enqueue none, Op.enqueue (some 7), Op.clear, Op.enqueue (some 8)] =
      Outcome.ok ((⟨[some 8, none], 2, 0, 1, false⟩ : Queue Nat), []) ∧
    ((⟨[some 8, none], 2, 0, 1, false⟩ : Queue Nat).Full = true ↔
      (⟨[some 8, none], 2, 0, 1, false⟩ : Queue Nat).Size = ((2 : Nat) : Int)) :=
  ⟨by decide,
   ((observers_agree 2 (by decide)
      [Op.enqueue none, Op.enqueue (some 7), Op.clear, Op.enqueue (some 8)]).2.1
      ⟨[some 8, none], 2, 0, 1, false⟩ [] (by decide)).1⟩

/-- C14: for every state reachable from `New C`, after `Clear()` both cursors are 0, the
full flag is false, every slot is nil, the capacity is still `C` and `Size()` is 0; the
state is the one `New C` returns, so every sequence of calls behaves after `Clear()` as on
a new queue. -/
theorem clear_resets (C : Nat) (hC : 1 ≤ C) (ops : List (Op α)) (q : Queue α)
    (outs : List (Option α)) (h : runOps C ops = Outcome.ok (q, outs)) :
    q.Clear.readerPosition = 0 ∧ q.Clear.writerPosition = 0 ∧ q.Clear.isFull = false ∧
    q.Clear.buffer.length = C ∧ (∀ i, i < C → q.Clear.buffer[i]? = some none) ∧
    q.Clear.maxSize = C ∧ q.Clear.Size = 0 ∧
    New C = Outcome.ok q.Clear ∧
    ∀ ops', runFrom q.Clear ops' = runOps C ops' := by
  rw [runOps_eq C hC] at h
  have hw : Wf q C := (runFrom_wf _ (New_wf (α := α) C hC) ops).2 _ h
  have he := hw.clear_eq
  rw [he]
  refine ⟨rfl, rfl, rfl, by simp, ?_, rfl, by simp [Queue.Size, Queue.Full], (New_eq C hC),
    ?_⟩
  · intro i hi
    simp only []
    exact List.getElem?_replicate_of_lt hi
  · intro ops'
    rw [runOps_eq C hC]

/-- Witness for C14: capacity 2 after two enqueues and one dequeue. -/
theorem clear_resets_witness :
    runOps 2 [Op.enqueue (some 7), Op.enqueue (some 8), Op.dequeue] =
      Outcome.ok ((⟨[none, some 8], 2, 1, 0, false⟩ : Queue Nat), [some 7]) ∧
    New 2 = Outcome.ok (⟨[none, some 8], 2, 1, 0, false⟩ : Queue Nat).Clear :=
  ⟨by decide,
   (clear_resets 2 (by decide) [Op.enqueue (some 7), Op.enqueue (some 8), Op.dequeue]
      ⟨[none, some 8], 2, 1, 0, false⟩ [some 7] (by decide)).2.2.2.2.2.2.2.1⟩

/-- C15: on a queue that holds the values `x :: l` (oldest first), `Peek()` returns `x`,
which is what the next `Dequeue()` returns; any number of `Peek()` calls return `x` each
time and leave the queue (buffer, cursors, full flag, hence `Size()`) as it was. -/
theorem peek_keeps (q : Queue α) (C : Nat) (x : α) (l : List α) (h : Holds q C (x :: l)) :
    q.Peek = Outcome.ok (some x) ∧
    (∃ q', q.Dequeue = Outcome.ok (some x, q') ∧ Holds q' C l) ∧
    q.Size = ((x :: l).length : Int) ∧
    ∀ n, runFrom q (List.replicate n Op.peek) =
      Outcome.ok (q, List.replicate n (some x)) := by
  refine ⟨h.peek, h.dequeue, h.size_eq, ?_⟩
  intro n
  induction n with
  | zero => rfl
  | succ n ih =>
    rw [List.replicate_succ', runFrom_snoc, ih]
    simp only [Outcome.bind, stepOp, h.peek]
    rw [← List.replicate_succ']

theorem twoHeld : Holds (⟨[none, some 8], 2, 1, 0, false⟩ : Queue Nat) 2 [8] := by
  refine ⟨rfl, rfl, by decide, by decide, rfl, rfl, ?_⟩
  intro i hi
  simp only [List.length_cons, List.length_nil] at hi
  interval_cases i
  rfl

/-- Witness for C15: capacity 2, the value 8 in slot 1 under the reader cursor. -/
theorem peek_keeps_witness :
    (⟨[none, some 8], 2, 1, 0, false⟩ : Queue Nat).Peek = Outcome.ok (some 8) ∧
    runFrom (⟨[none, some 8], 2, 1, 0, false⟩ : Queue Nat) (List.replicate 3 Op.peek) =
      Outcome.ok (⟨[none, some 8], 2, 1, 0, false⟩, List.replicate 3 (some 8)) :=
  ⟨(peek_keeps _ 2 8 [] twoHeld).1, (peek_keeps _ 2 8 [] twoHeld).2.2.2 3⟩

/-- `Dequeue` on a queue whose head is a nil entry returns nil and changes nothing. -/
theorem Wedged.dequeue_nil {q : Queue α} {C : Nat} (h : Wedged q C) :
    q.Dequeue = Outcome.ok (none, q) := by
  unfold Queue.Dequeue
  rw [if_neg (by simp [h.nonempty]), h.head]

/-- An `Enqueue` that returns keeps the head nil, the reader cursor in place and a set
full flag set. -/
theorem Wedged.enqueue_keeps {q q' : Queue α} {C : Nat} (h : Wedged q C) (v : Option α)
    (hq : q.Enqueue v = Outcome.ok q') :
    Wedged q' C ∧ q'.readerPosition = q.readerPosition ∧ q'.Size = q.Size + 1 := by
  obtain ⟨e1, e2, e3, e4, e5, e6⟩ := (h.wf.enqueue_wf v).2.2 q' hq
  have hsz : q.Size ≠ 0 := by simpa [Queue.Empty] using h.nonempty
  have hb := h.wf.size_bounds
  have hne : q.readerPosition ≠ q.writerPosition := by
    intro he
    apply hsz
    simp [Queue.Size, Queue.Full, he, e5]
  refine ⟨⟨e1, ?_, ?_⟩, e4, e3⟩
  · simp only [Queue.Empty, e3, decide_eq_false_iff_not]
    omega
  · rw [e4, e6 _ hne, h.head]

/-- A step of `Enqueue` or `Dequeue` from a queue whose head is a nil entry. -/
theorem Wedged.step {C : Nat} (st st' : Queue α × List (Option α)) (o : Op α)
    (h : Wedged st.1 C) (ho : (∃ v, o = Op.enqueue v) ∨ o = Op.dequeue)
    (hs : stepOp st o = Outcome.ok st') :
    Wedged st'.1 C ∧ st'.1.readerPosition = st.1.readerPosition ∧
    st.1.Size ≤ st'.1.Size ∧ (st'.2 = st.2 ∨ st'.2 = st.2 ++ [none]) := by
  rcases ho with ⟨v, rfl⟩ | rfl
  · cases he : st.1.Enqueue v with
    | panics => simp [stepOp, he, Outcome.bind] at hs
    | blocks => simp [stepOp, he, Outcome.bind] at hs
    | ok q' =>
      simp only [stepOp, he, Outcome.bind, Outcome.ok.injEq] at hs
      subst hs
      obtain ⟨w1, w2, w3⟩ := h.enqueue_keeps v he
      exact ⟨w1, w2, by show st.1.Size ≤ q'.Size; omega, Or.inl rfl⟩
  · simp only [stepOp, h.dequeue_nil, Outcome.bind, Outcome.ok.injEq] at hs
    subst hs
    exact ⟨h, rfl, le_refl _, Or.inr rfl⟩

/-- Any run of `Enqueue` and `Dequeue` calls from a queue whose head is a nil entry. -/
theorem Wedged.run {C : Nat} (q : Queue α) (h : Wedged q C) (ops : List (Op α))
    (hn : noClear ops) (st : Queue α × List (Option α))
    (hs : runFrom q ops = Outcome.ok st) :
    Wedged st.1 C ∧ st.1.readerPosition = q.readerPosition ∧ q.Size ≤ st.1.Size ∧
    (∀ v, v ∈ st.2 → v = none) := by
  induction ops using List.reverseRecOn generalizing st with
  | nil =>
    simp only [runFrom, List.foldl_nil, Outcome.ok.injEq] at hs
    subst hs
    exact ⟨h, rfl, le_refl _, by simp⟩
  | append_singleton ops o ih =>
    rw [runFrom_snoc] at hs
    cases hr : runFrom q ops with
    | panics => simp [hr, Outcome.bind] at hs
    | blocks => simp [hr, Outcome.bind] at hs
    | ok st₀ =>
      simp only [hr, Outcome.bind] at hs
      obtain ⟨i1, i2, i3, i4⟩ := ih (fun o ho => hn o (by simp [ho])) st₀ hr
      obtain ⟨s1, s2, s3, s4⟩ := Wedged.step st₀ st o i1 (hn o (by simp)) hs
      refine ⟨s1, by rw [s2, i2], by omega, ?_⟩
      intro v hv
      rcases s4 with e | e
      · rw [e] at hv; exact i4 v hv
      · rw [e] at hv
        simp only [List.mem_append, List.mem_singleton] at hv
        rcases hv with hv | hv
        · exact i4 v hv
        · exact hv

/-- C17: `Enqueue` accepts a nil value and counts it (`Size()` goes up by one). On a queue
whose head is a nil entry `Dequeue` returns nil and leaves the queue as it was; hence in
every run of `Enqueue` and `Dequeue` calls from such a queue every `Dequeue` returns nil
(no value enqueued later is returned), the reader cursor stays, `Size()` never goes down,
and a full queue stays full. Conversely a queue that holds the non-nil values `x :: l`
returns `x`, not nil, from `Dequeue`. -/
theorem nil_wedges (q : Queue α) (C : Nat) (hw : Wf q C) :
    (q.Full = false → ∃ q', q.Enqueue none = Outcome.ok q' ∧ q'.Size = q.Size + 1 ∧
      (q.Empty = true → Wedged q' C)) ∧
    (Wedged q C → q.Dequeue = Outcome.ok (none, q)) ∧
    (Wedged q C → ∀ ops q' outs, noClear ops → runFrom q ops = Outcome.ok (q', outs) →
      Wedged q' C ∧ q'.readerPosition = q.readerPosition ∧ q.Size ≤ q'.Size ∧
      (∀ v, v ∈ outs → v = none) ∧ (q.Full = true → q'.Full = true)) ∧
    (∀ x l, Holds q C (x :: l) → ∃ q', q.Dequeue = Outcome.ok (some x, q')) := by
  refine ⟨?_, fun h => h.dequeue_nil, ?_, ?_⟩
  · intro hf
    obtain ⟨e1, e2, e3⟩ := hw.enqueue_wf none
    cases he : q.Enqueue none with
    | panics => exact absurd he e1
    | blocks => rw [e2.1 he] at hf; cases hf
    | ok q' =>
      obtain ⟨w1, w2, w3, w4, w5, w6⟩ := e3 q' he
      refine ⟨q', rfl, w3, ?_⟩
      intro hem
      have hsz : q.Size = 0 := by simpa [Queue.Empty] using hem
      have hrw : q.writerPosition = q.readerPosition := by
        have h2 := hw.rd; have h3 := hw.wr; have h1 := hw.cap
        simp only [Queue.Size, Queue.Full] at hsz
        split_ifs at hsz <;> omega
      refine ⟨w1, by simp [Queue.Empty, w3, hsz], ?_⟩
      rw [w4]
      have hlen := hw.len
      have h2 := hw.rd
      have : q'.buffer = q.buffer.set q.writerPosition none := by
        unfold Queue.Enqueue at he
        rw [if_neg (by simp [hf]), if_pos (by have := hw.wr; omega)] at he
        simp only [Outcome.ok.injEq] at he
        rw [← he]
      rw [this, hrw, List.getElem?_set_self (by omega)]
  · intro hwd ops q' outs hn hr
    obtain ⟨r1, r2, r3, r4⟩ := hwd.run q ops hn (q', outs) hr
    refine ⟨r1, r2, r3, r4, ?_⟩
    intro hf
    have hs := hw.full_iff.1 hf
    have hb := r1.wf.size_bounds
    simp only at r3 hb
    exact r1.wf.full_iff.2 (by show q'.Size = (C : Int); omega)
  · intro x l hh
    obtain ⟨q', hq', -⟩ := hh.dequeue
    exact ⟨q', hq'⟩

/-- Witness for C17: capacity 2; a nil value is enqueued on the new queue, then the value
5; two `Dequeue` calls return nil and the queue stays full. -/
theorem nil_wedges_witness :
    (∃ q', (⟨[none, none], 2, 0, 0, false⟩ : Queue Nat).Enqueue none = Outcome.ok q' ∧
      q'.Size = (⟨[none, none], 2, 0, 0, false⟩ : Queue Nat).Size + 1 ∧
      ((⟨[none, none], 2, 0, 0, false⟩ : Queue Nat).Empty = true → Wedged q' 2)) ∧
    runOps 2 [Op.enqueue none, Op.enqueue (some 5), Op.dequeue, Op.dequeue] =
      Outcome.ok ((⟨[none, some 5], 2, 0, 0, true⟩ : Queue Nat), [none, none]) :=
  ⟨(nil_wedges (⟨[none, none], 2, 0, 0, false⟩ : Queue Nat) 2 (New_wf 2 (by decide))).1 rfl,
   by decide⟩

end circularbuffer

/-! ## Theorems: the condition variable of the queue -/

namespace circularbuffer

variable {α : Type}

/-- A `Broadcast` leaves parked every task that waits on an older condition variable. -/
theorem Broadcast_keeps (m : Monitor α) (old : List (Parked α))
    (hold : ∀ p, p ∈ old → p.cond < m.cond) (hs : old.Sublist m.parked) :
    old.Sublist (Monitor.Broadcast m).parked := by
  have h := List.Sublist.filter (fun p : Parked α => decide (p.cond ≠ m.cond)) hs
  have he : old.filter (fun p : Parked α => decide (p.cond ≠ m.cond)) = old := by
    rw [List.filter_eq_self]
    intro p hp
    have := hold p hp
    simp only [ne_eq, decide_not, Bool.not_eq_true', decide_eq_false_iff_not]
    omega
  rw [he] at h
  exact h

/-- A task that evaluates its predicate changes neither the condition variable nor the
set of tasks parked on older ones. -/
theorem attempt_keeps (m m' : Monitor α) (c : Pending α) (old : List (Parked α))
    (hold : ∀ p, p ∈ old → p.cond < m.cond) (hs : old.Sublist m.parked)
    (ha : m.attempt c = Outcome.ok m') :
    m'.cond = m.cond ∧ m'.fresh = m.fresh ∧ old.Sublist m'.parked := by
  have hwait : ∀ c', old.Sublist (m.Wait c').parked := fun c' =>
    hs.trans (List.sublist_append_left _ _)
  cases c with
  | enqueue v =>
    unfold Monitor.attempt at ha
    cases he : m.queue.Enqueue v with
    | panics => simp [he] at ha
    | blocks =>
      simp only [he, Outcome.ok.injEq] at ha
      subst ha
      exact ⟨rfl, rfl, hwait _⟩
    | ok q =>
      simp only [he, Outcome.ok.injEq] at ha
      subst ha
      exact ⟨rfl, rfl, Broadcast_keeps { m with queue := q } old hold hs⟩
  | dequeue =>
    unfold Monitor.attempt at ha
    cases he : m.queue.Dequeue with
    | panics => simp [he] at ha
    | blocks =>
      simp only [he, Outcome.ok.injEq] at ha
      subst ha
      exact ⟨rfl, rfl, hwait _⟩
    | ok r =>
      obtain ⟨v, q⟩ := r
      simp only [he, Outcome.ok.injEq] at ha
      subst ha
      exact ⟨rfl, rfl,
        Broadcast_keeps { m with queue := q, returned := m.returned ++ [v] } old hold hs⟩
  | peek =>
    unfold Monitor.attempt at ha
    cases he : m.queue.Peek with
    | panics => simp [he] at ha
    | blocks =>
      simp only [he, Outcome.ok.injEq] at ha
      subst ha
      exact ⟨rfl, rfl, hwait _⟩
    | ok v =>
      simp only [he, Outcome.ok.injEq] at ha
      subst ha
      exact ⟨rfl, rfl, hs⟩

/-- No event wakes a task that waits on an older condition variable. -/
theorem step_keeps (m m' : Monitor α) (e : Event α) (old : List (Parked α))
    (hf : m.cond < m.fresh)
    (hold : ∀ p, p ∈ old → p.cond < m.cond) (hs : old.Sublist m.parked)
    (hst : m.step e = Outcome.ok m') :
    m'.cond < m'.fresh ∧ m.cond ≤ m'.cond ∧ old.Sublist m'.parked := by
  cases e with
  | call c =>
    obtain ⟨a1, a2, a3⟩ := attempt_keeps m m' c old hold hs hst
    exact ⟨by omega, by omega, a3⟩
  | clear =>
    simp only [Monitor.step, Outcome.ok.injEq] at hst
    subst hst
    simp only [Monitor.Clear]
    exact ⟨by omega, by omega, hs⟩
  | resume i =>
    unfold Monitor.step at hst
    cases hr : m.runnable[i]? with
    | none =>
      simp only [hr, Outcome.ok.injEq] at hst
      subst hst
      exact ⟨hf, le_refl _, hs⟩
    | some c =>
      simp only [hr] at hst
      obtain ⟨a1, a2, a3⟩ :=
        attempt_keeps { m with runnable := m.runnable.eraseIdx i } m' c old hold hs hst
      simp only at a1 a2
      exact ⟨by omega, by omega, a3⟩

theorem Monitor.run_append_one (m : Monitor α) (es : List (Event α)) (e : Event α) :
    m.run (es ++ [e]) = (m.run es).bind (fun m => m.step e) := by
  simp [Monitor.run, List.foldl_append]

/-- C16 (what the code does): the tasks parked in `Wait` when `Clear()` is called are
parked on the condition variable that `Clear()` replaces, and whatever happens afterwards
(calls of `Enqueue`, `Dequeue`, `Peek`, `Clear`, woken tasks resuming) each of them is
still parked: no `Broadcast` reaches it. -/
theorem clear_strands_waiters (m : Monitor α) (hf : m.cond < m.fresh)
    (hp : ∀ p, p ∈ m.parked → p.cond ≤ m.cond) (es : List (Event α)) (m' : Monitor α)
    (hr : m.Clear.run es = Outcome.ok m') :
    m.parked.Sublist m'.parked ∧ ∀ p, p ∈ m.parked → p.cond < m'.cond := by
  have key : m.Clear.cond < m'.fresh ∧ m.Clear.cond ≤ m'.cond ∧ m'.cond < m'.fresh ∧
      m.parked.Sublist m'.parked := by
    induction es using List.reverseRecOn generalizing m' with
    | nil =>
      simp only [Monitor.run, List.foldl_nil, Outcome.ok.injEq] at hr
      subst hr
      simp only [Monitor.Clear]
      exact ⟨by omega, le_refl _, by omega, List.Sublist.refl _⟩
    | append_singleton es e ih =>
      rw [Monitor.run_append_one] at hr
      cases h0 : m.Clear.run es with
      | panics => simp [h0, Outcome.bind] at hr
      | blocks => simp [h0, Outcome.bind] at hr
      | ok m₀ =>
        simp only [h0, Outcome.bind] at hr
        obtain ⟨i1, i2, i3, i4⟩ := ih m₀ h0
        have hold : ∀ p, p ∈ m.parked → p.cond < m₀.cond := by
          intro p hp'
          have := hp p hp'
          simp only [Monitor.Clear] at i2
          omega
        obtain ⟨s1, s2, s3⟩ := step_keeps m₀ m' e m.parked i3 hold i4 hr
        exact ⟨by omega, by omega, s1, s3⟩
  refine ⟨key.2.2.2, ?_⟩
  intro p hp'
  have := hp p hp'
  have h2 := key.2.1
  simp only [Monitor.Clear] at h2
  omega

/-- Witness for C16: a consumer parks in `Dequeue` on the empty ring of capacity 2; after
`Clear()` and an `Enqueue(1)` the consumer is still parked although the ring holds a value,
and nothing is runnable. Without the `Clear()` the consumer is woken and returns 1. -/
theorem clear_strands_waiters_witness :
    (Monitor.run
        (⟨⟨[none, none], 2, 0, 0, false⟩, 0, 1, [⟨0, Pending.dequeue⟩], [], []⟩ : Monitor Nat).Clear
        [Event.call (Pending.enqueue (some 1)), Event.resume 0] =
      Outcome.ok ⟨⟨[some 1, none], 2, 0, 1, false⟩, 1, 2, [⟨0, Pending.dequeue⟩], [], []⟩) ∧
    List.Sublist [(⟨0, Pending.dequeue⟩ : Parked Nat)]
      (⟨⟨[some 1, none], 2, 0, 1, false⟩, 1, 2, [⟨0, Pending.dequeue⟩], [], []⟩ :
        Monitor Nat).parked ∧
    (Monitor.New (α := Nat) 2).bind (fun m => m.run clearScenario) =
      Outcome.ok ⟨⟨[some 1, none], 2, 0, 1, false⟩, 1, 2, [⟨0, Pending.dequeue⟩], [], []⟩ ∧
    (Monitor.New (α := Nat) 2).bind (fun m => m.run plainScenario) =
      Outcome.ok ⟨⟨[none, none], 2, 1, 1, false⟩, 0, 1, [], [], [some 1]⟩ :=
  ⟨by decide,
   (clear_strands_waiters
      (⟨⟨[none, none], 2, 0, 0, false⟩, 0, 1, [⟨0, Pending.dequeue⟩], [], []⟩ : Monitor Nat)
      (by decide) (by decide)
      [Event.call (Pending.enqueue (some 1)), Event.resume 0] _ (by decide)).1,
   by decide, by decide⟩

end circularbuffer

/-! ## Theorems: pkg/client, late frames and the reconnect loop -/

namespace client

open messages player

/-- With every dial failing, a disconnected client that is `k` attempts short of the
maximum makes exactly `k` more dials and exits; `k` passes are not enough. -/
theorem Run_all_fail (k : Nat) :
    ∀ (c : Client) (dials fuel : Nat), c.shutdown = false → c.closed = true →
      c.reconnectTimes + (k : Int) = c.reconnectMaxTimes →
      (k < fuel → Client.Run (fun _ => false) fuel c dials =
        some ({ c with reconnectTimes := c.reconnectMaxTimes }, dials + k)) ∧
      (fuel ≤ k → Client.Run (fun _ => false) fuel c dials = none) := by
  induction k with
  | zero =>
    intro c dials fuel hs hc hk
    constructor
    · intro hf
      obtain ⟨fuel, rfl⟩ : ∃ f, fuel = f + 1 := ⟨fuel - 1, by omega⟩
      have hge : c.reconnectTimes ≥ c.reconnectMaxTimes := by omega
      have he : c.reconnectMaxTimes = c.reconnectTimes := by omega
      have hit : c.iterate false = Iteration.exits := by
        unfold Client.iterate
        rw [if_neg (by simp [hs]), if_pos hc, if_pos hge]
      simp only [Client.Run, hit, Nat.add_zero]
      cases c
      simp_all
    · intro hf
      have : fuel = 0 := by omega
      subst this
      rfl
  | succ k ih =>
    intro c dials fuel hs hc hk
    have hlt : ¬ c.reconnectTimes ≥ c.reconnectMaxTimes := by push_cast at hk; omega
    cases fuel with
    | zero => exact ⟨fun h => by omega, fun _ => rfl⟩
    | succ fuel =>
      have hstep : Client.Run (fun _ => false) (fuel + 1) c dials =
          Client.Run (fun _ => false) fuel
            { c with reconnectTimes := c.reconnectTimes + 1 } (dials + 1) := by
        simp [Client.Run, Client.iterate, hs, hc, hlt, Client.Connect]
      obtain ⟨i1, i2⟩ := ih { c with reconnectTimes := c.reconnectTimes + 1 } (dials + 1) fuel
        hs hc (by push_cast at hk ⊢; show c.reconnectTimes + 1 + (k : Int) = _; omega)
      rw [hstep]
      constructor
      · intro hf
        rw [i1 (by omega)]
        simp only [Option.some.injEq, Prod.mk.injEq]
        exact ⟨trivial, by omega⟩
      · intro hf
        exact i2 (by omega)

/-- C12: in `Client.Run`, one pass through the loop makes a dial exactly when the client is
not shutting down, is closed and has made fewer than `reconnectMaxTimes` attempts; a failed
dial adds one to the attempts and changes nothing else; a successful dial sets the client
to connected and the attempts to 0; the loop exits exactly when the shutdown flag is set or
the client is closed with attempts ≥ `reconnectMaxTimes`; and starting disconnected with 0
attempts and maximum `M ≥ 0`, if every dial fails the loop makes exactly `M` dials and
then exits (`M + 1` passes suffice, `M` do not). -/
theorem bounded_reconnect (c : Client) (M : Nat) (hM : c.reconnectMaxTimes = (M : Int))
    (hs : c.shutdown = false) (hc : c.closed = true) (h0 : c.reconnectTimes = 0) :
    (∀ (c₁ : Client) (d : Bool),
      ((∃ ok c', c₁.iterate d = Iteration.dials ok c') ↔
        (c₁.shutdown = false ∧ c₁.closed = true ∧ c₁.reconnectTimes < c₁.reconnectMaxTimes)) ∧
      (c₁.iterate d = Iteration.exits ↔
        (c₁.shutdown = true ∨
          (c₁.closed = true ∧ c₁.reconnectTimes ≥ c₁.reconnectMaxTimes))) ∧
      (∀ ok c', c₁.iterate d = Iteration.dials ok c' → ok = d) ∧
      (∀ c', c₁.iterate false = Iteration.dials false c' →
        c' = { c₁ with reconnectTimes := c₁.reconnectTimes + 1 }) ∧
      (∀ c', c₁.iterate true = Iteration.dials true c' →
        c'.closed = false ∧ c'.shutdown = false ∧ c'.reconnectTimes = 0)) ∧
    (∀ fuel, M < fuel → Client.Run (fun _ => false) fuel c 0 =
      some ({ c with reconnectTimes := (M : Int) }, M)) ∧
    (∀ fuel, fuel ≤ M → Client.Run (fun _ => false) fuel c 0 = none) := by
  refine ⟨?_, ?_, ?_⟩
  · intro c₁ d
    refine ⟨?_, ?_, ?_, ?_, ?_⟩
    · unfold Client.iterate
      constructor
      · rintro ⟨ok, c', h⟩
        split_ifs at h with a b e
        simp_all
      · rintro ⟨a, b, e⟩
        rw [if_neg (by simp [a]), if_pos b, if_neg (by omega)]
        exact ⟨_, _, rfl⟩
    · unfold Client.iterate
      constructor
      · intro h
        split_ifs at h with a b e
        · exact Or.inl a
        · exact Or.inr ⟨b, e⟩
      · rintro (a | ⟨b, e⟩)
        · rw [if_pos a]
        · by_cases a : c₁.shutdown = true
          · rw [if_pos a]
          · rw [if_neg a, if_pos b, if_pos e]
    · intro ok c' h
      unfold Client.iterate Client.Connect at h
      split_ifs at h with a b e f <;> simp_all
    · intro c' h
      unfold Client.iterate Client.Connect at h
      split_ifs at h with a b e <;> simp_all
    · intro c' h
      unfold Client.iterate Client.Connect at h
      split_ifs at h with a b e <;> simp_all
      obtain ⟨rfl⟩ := h
      exact ⟨rfl, rfl, rfl⟩
  · intro fuel hf
    have := (Run_all_fail M c 0 fuel hs hc (by rw [h0, hM]; simp)).1 hf
    rw [this, hM]
    simp
  · intro fuel hf
    exact (Run_all_fail M c 0 fuel hs hc (by rw [h0, hM]; simp)).2 hf

/-- Witness for C12: the default client (maximum 3): three failed dials, then exit. -/
theorem bounded_reconnect_witness :
    Client.Run (fun _ => false) 4 demoClient 0 =
      some ({ demoClient with reconnectTimes := 3 }, 3) ∧
    Client.Run (fun _ => false) 3 demoClient 0 = none :=
  ⟨(bounded_reconnect demoClient 3 rfl rfl rfl rfl).2.1 4 (by decide),
   (bounded_reconnect demoClient 3 rfl rfl rfl rfl).2.2 3 (by decide)⟩

/-- `Player.Enqueue` on a frame with equal-length channels whose first sample is more than
100 ms old stops at index 0: nothing is enqueued and the player is as before. -/
theorem Enqueue_stale (p : Player) (m : Audio) (ts : Timestamp) (wall : Wall) (tick : Nat)
    (hts : m.Time = some ts) (heq : m.Left.length = m.Right.length)
    (hsr : p.SampleRate ≠ 0)
    (hold : (time.Unix ts.Seconds ts.Nanos).unixNano + 100 * time.Millisecond <
      (wall tick).unixNano) :
    p.Enqueue m wall tick = Outcome.ok (p, if m.Left = [] then tick else tick + 1) := by
  unfold Player.Enqueue
  cases hl : m.Left with
  | nil => simp [Player.enqueueLoop]
  | cons x xs =>
    have hr : ∃ y, m.Right[0]? = some y := by
      cases hR : m.Right with
      | nil => rw [hl, hR] at heq; simp at heq
      | cons y ys => exact ⟨y, by simp⟩
    obtain ⟨y, hy⟩ := hr
    have hd : p.SampleDuration ((0 : Nat) : Int) = Outcome.ok 0 := by
      simp [Player.SampleDuration, beep.SampleRate.D, hsr, time.wrap64, time.Second]
    have hsub : (wall tick).Sub ((time.Unix ts.Seconds ts.Nanos).Add 0) >
        time.Millisecond * 100 := by
      simp only [time.Time.Sub, time.Time.Add, time.clamp64, time.minInt64, time.maxInt64,
        time.Millisecond] at hold ⊢
      split_ifs <;> omega
    simp only [Player.enqueueLoop, hy, hd, Outcome.bind, hts, timex.ToTime, audio.New]
    rw [if_pos hsub]
    simp

/-- C11: an Audio frame with equal-length channels whose base timestamp is at least 2 s
before the wall clock at reception (the wall clock of the ingestion task not running
behind that instant) leaves the client, hence the ring content and `Size()`, exactly as it
was, whatever the latency: `Client.OnTraffic` discards the frame exactly when
`effective_now - (t0 + N/SR) > 1 s`, and otherwise `Player.Enqueue` stops at index 0
because the first sample is more than 100 ms old. -/
theorem late_frame_no_growth (P : Proto) (cl : Client) (con con' : Conn) (m : Audio)
    (ts : Timestamp) (now : time.Time) (wall : Wall)
    (hdec : FromConnection P con = (Except.ok (Message.audio m), con'))
    (hts : m.Time = some ts) (heq : m.Left.length = m.Right.length)
    (hsr : cl.player.SampleRate ≠ 0)
    (hlate : (time.Unix ts.Seconds ts.Nanos).unixNano + 2 * time.Second ≤ now.unixNano)
    (hmono : now.unixNano ≤ (wall 0).unixNano) :
    handleTraffic P cl con now wall = Outcome.ok (gnet.Action.None, cl, con') ∧
    (∃ h, OnTraffic P cl con now = Outcome.ok h ∧ h.client = cl ∧
      (h.spawned = none ↔
        (cl.player.clock.Now now).Sub ((time.Unix ts.Seconds ts.Nanos).Add
          (Int.tdiv (time.wrap64 (time.Second * (m.Left.length : Int))) cl.player.SampleRate))
          > time.Second) ∧
      (h.spawned ≠ none → h.spawned = some m)) ∧
    cl.player.Enqueue m wall 0 =
      Outcome.ok (cl.player, if m.Left = [] then 0 else 1) := by
  have hold : (time.Unix ts.Seconds ts.Nanos).unixNano + 100 * time.Millisecond <
      (wall 0).unixNano := by
    simp only [time.Second, time.Millisecond] at hlate ⊢
    omega
  have henq := Enqueue_stale cl.player m ts wall 0 hts heq hsr hold
  have hd : cl.player.SampleDuration (m.Left.length : Int) = Outcome.ok
      (Int.tdiv (time.wrap64 (time.Second * (m.Left.length : Int))) cl.player.SampleRate) := by
    simp [Player.SampleDuration, beep.SampleRate.D, hsr]
  have hon : OnTraffic P cl con now = Outcome.ok
      { action := gnet.Action.None, client := cl, connection := con',
        spawned :=
          if (cl.player.clock.Now now).Sub ((time.Unix ts.Seconds ts.Nanos).Add
            (Int.tdiv (time.wrap64 (time.Second * (m.Left.length : Int)))
              cl.player.SampleRate)) > time.Second
          then none else some m } := by
    unfold OnTraffic
    rw [hdec]
    simp only [hd, Outcome.bind, hts, timex.ToTime]
    split_ifs <;> rfl
  refine ⟨?_, ⟨_, hon, rfl, ?_, ?_⟩, by simpa using henq⟩
  · unfold handleTraffic
    rw [hon]
    simp only [Outcome.bind]
    split_ifs
    · rfl
    · simp only [henq, Outcome.bind]
  · simp only
    split_ifs with h <;> simp [h]
  · simp only
    split_ifs with h <;> simp

/-- Witness for C11: a one-sample frame stamped 2 s before reception at 44100 Hz. With a
latency of 5 ms the pre-filter drops it; with a latency of 1.5 s the pre-filter lets it
through and `Player.Enqueue` stops at index 0. The client is unchanged both times. -/
theorem late_frame_no_growth_witness :
    handleTraffic lateProto demoClient ⟨PutUint64 0x10 ++ PutUint64 0⟩ ⟨2000000000⟩
        (fun _ => ⟨2000000000⟩) =
      Outcome.ok (gnet.Action.None, demoClient, ⟨[]⟩) ∧
    handleTraffic lateProto laggingClient ⟨PutUint64 0x10 ++ PutUint64 0⟩ ⟨2000000000⟩
        (fun _ => ⟨2000000000⟩) =
      Outcome.ok (gnet.Action.None, laggingClient, ⟨[]⟩) ∧
    OnTraffic lateProto demoClient ⟨PutUint64 0x10 ++ PutUint64 0⟩ ⟨2000000000⟩ =
      Outcome.ok ⟨gnet.Action.None, demoClient, ⟨[]⟩, none⟩ ∧
    OnTraffic lateProto laggingClient ⟨PutUint64 0x10 ++ PutUint64 0⟩ ⟨2000000000⟩ =
      Outcome.ok ⟨gnet.Action.None, laggingClient, ⟨[]⟩, some ⟨[1], [2], some ⟨0, 0⟩⟩⟩ :=
  ⟨(late_frame_no_growth lateProto demoClient ⟨PutUint64 0x10 ++ PutUint64 0⟩ ⟨[]⟩
      ⟨[1], [2], some ⟨0, 0⟩⟩ ⟨0, 0⟩ ⟨2000000000⟩ (fun _ => ⟨2000000000⟩)
      rfl rfl rfl (by decide) (by decide) (by decide)).1,
   (late_frame_no_growth lateProto laggingClient ⟨PutUint64 0x10 ++ PutUint64 0⟩ ⟨[]⟩
      ⟨[1], [2], some ⟨0, 0⟩⟩ ⟨0, 0⟩ ⟨2000000000⟩ (fun _ => ⟨2000000000⟩)
      rfl rfl rfl (by decide) (by decide) (by decide)).1,
   by decide, by decide⟩

end client
